import Mathlib

/-!
# Polygon finder (depth-first cycle enumeration)

A shallow embedding of `Polygon_Finder_DFS.c`: the graph store (`createGraph`,
`addEdge`), the backtracking search (`dfs`, `findShapes`) with the perimeter
loop, and the deduplication pass (`arePolygonsSame`, `removeDuplicates`).

Modelling conventions.

* Vertex indices are natural numbers.  The C arrays `visited`, `stack`,
  `graph->edges` and `graph->edgeCount` have `MAX_NODES` slots; an access at an
  index that is not below `MAX_NODES` is outside the array and is modelled as
  the failure value `none`.
* Arrays are functions from indices to values, written with `setAt`.
* The `polygons` array with its counter `polygonCount` is the list of its
  first `polygonCount` entries; appending is a write at `polygons[polygonCount]`
  followed by the increment.  The callee never learns the capacity of that
  array, so the list is unbounded here.
* `int` is 32 bits wide, two's complement.  A weight is stored as it is given
  (the C weights are the integers in the range of `int`); the accumulation
  `polygon.perimeter += weight` of the perimeter loop yields the mathematical
  sum reduced modulo `2^32` into the range of `int` (`wrapInt`), which is what
  the compiled program stores when the sum leaves that range.
* The recursion of `dfs` is driven by a fuel argument that bounds the depth of
  the recursion; `findShapes` supplies `MAX_NODES + 1`, one more than the
  number of slots of `stack`, so the bound check on `stack` fails before the
  fuel can run out (`findShapes_total` shows that the search returns on every
  graph with in-range neighbours).
* `arePolygonsSame` sorts with `qsort` and the comparator `strcmp`.  The
  comparator is modelled on the object representation of `int` (32 bits,
  little-endian) and `qsort` as a stable comparison sort.
-/

namespace PolygonFinder

/-! ## Data model -/

/-- Number of slots of every per-vertex array (`#define MAX_NODES 100`). -/
def MAX_NODES : Nat := 100

/-- An incident edge: the neighbour index and the weight (`struct Edge`). -/
structure Edge where
  node : Nat
  weight : Int
deriving DecidableEq, Repr

/-- The graph store: `edges u` is the array `graph->edges[u]` of length
`graph->edgeCount[u]`, in insertion order. -/
structure Graph where
  edges : Nat → List Edge

/-- A recorded polygon: the node array (of `nodeCount` entries) and the
perimeter (`struct Polygon`). -/
structure Polygon where
  nodes : List Nat
  perimeter : Int
deriving DecidableEq, Repr

/-- The `nodeCount` field: the number of entries of the node array. -/
def Polygon.nodeCount (p : Polygon) : Nat := p.nodes.length

/-- Array write `a[i] = x`. -/
def setAt {α : Type} (a : Nat → α) (i : Nat) (x : α) : Nat → α :=
  fun j => if j = i then x else a j

/-! ## Graph store -/

/-- `createGraph(N)`: every slot below `N` gets an empty edge list.  (The
source leaves the slots from `N` on uninitialised; `main` passes `MAX_NODES`,
so there are none.  The model gives every slot the empty list.) -/
def createGraph (_N : Nat) : Graph := ⟨fun _ => []⟩

/-- `addEdge(graph, u, v, weight)`: append `(v, weight)` to the list of `u`,
then `(u, weight)` to the list of `v`. -/
def addEdge (graph : Graph) (u v : Nat) (weight : Int) : Graph :=
  let g1 : Graph := ⟨setAt graph.edges u (graph.edges u ++ [⟨v, weight⟩])⟩
  ⟨setAt g1.edges v (g1.edges v ++ [⟨u, weight⟩])⟩

/-- The graph obtained from `createGraph(MAX_NODES)` by one `addEdge` call per
triple `(u, v, weight)`, in order (the reading loop of `main`). -/
def buildGraph (triples : List (Nat × Nat × Int)) : Graph :=
  triples.foldl (fun g t => addEdge g t.1 t.2.1 t.2.2) (createGraph MAX_NODES)

/-! ## Perimeter loop -/

/-- The value an `int` holds after an arithmetic result `x`: `x` reduced
modulo `2^32` into the range from `-2^31` to `2^31 - 1`. -/
def wrapInt (x : Int) : Int := (x + 2147483648) % 4294967296 - 2147483648

/-- The inner `while (!exit && k < edgeCount)` scan of the perimeter loop over
the edge list of one polygon node: the weight of the first edge whose
neighbour is `target` is added to the perimeter (`polygon.perimeter += weight`
on `int`); when there is none the perimeter is left as it is. -/
def edgeScan (target : Nat) : List Edge → Int → Int
  | [], perimeter => perimeter
  | e :: es, perimeter =>
    if e.node = target then wrapInt (perimeter + e.weight) else edgeScan target es perimeter

/-- The perimeter loop `for (j = 0; j < polygon.nodeCount; j++)`: for each
position `j` scan the edges of `nodes[j]` for `nodes[(j + 1) % nodeCount]`.
The accumulator is the `int` field `polygon.perimeter`, set to 0 before the
loop. -/
def perimeterLoop (graph : Graph) (nodes : List Nat) : Int :=
  (List.range nodes.length).foldl
    (fun perimeter j =>
      edgeScan (nodes.getD ((j + 1) % nodes.length) 0) (graph.edges (nodes.getD j 0)) perimeter)
    0

/-! ## Depth-first search -/

/-- The mutable state threaded through `dfs`: the arrays `visited` and
`stack`, the counter `*stackIndex`, and the polygons written so far. -/
structure DfsState where
  visited : Nat → Bool
  stack : Nat → Nat
  stackIndex : Nat
  polygons : List Polygon

/-- The entries `stack[0 .. stackIndex)`, the current path. -/
def stackList (s : DfsState) : List Nat := (List.range s.stackIndex).map s.stack

/-- The polygon built in the closing branch of `dfs`: the nodes are copied
from `stack[0 .. stackIndex)` and the perimeter loop is run on the copy; the
polygon is then written at `polygons[polygonCount]`. -/
def recordPolygon (graph : Graph) (s : DfsState) : DfsState :=
  { s with polygons := s.polygons ++ [⟨stackList s, perimeterLoop graph (stackList s)⟩] }

/-- One iteration of `for (i = 0; i < graph->edgeCount[node]; i++)` for the
edge `e`; `recurse` is the recursive call. -/
def dfsStep (graph : Graph) (start : Nat) (recurse : Nat → DfsState → Option DfsState)
    (s : DfsState) (e : Edge) : Option DfsState :=
  if e.node < MAX_NODES then
    if s.visited e.node = false then recurse e.node s
    else if e.node = start ∧ 3 ≤ s.stackIndex then some (recordPolygon graph s)
    else some s
  else none

/-- The edge loop: run `body` over the edges in order, stopping at a failure. -/
def forEdges (body : DfsState → Edge → Option DfsState) : List Edge → DfsState → Option DfsState
  | [], s => some s
  | e :: es, s =>
    match body s e with
    | none => none
    | some s1 => forEdges body es s1

/-- Entry of `dfs`: `visited[node] = true; stack[(*stackIndex)++] = node;`. -/
def pushNode (s : DfsState) (node : Nat) : DfsState :=
  { visited := setAt s.visited node true
    stack := setAt s.stack s.stackIndex node
    stackIndex := s.stackIndex + 1
    polygons := s.polygons }

/-- Exit of `dfs`: `visited[node] = false; (*stackIndex)--;`. -/
def popNode (s : DfsState) (node : Nat) : DfsState :=
  { visited := setAt s.visited node false
    stack := s.stack
    stackIndex := s.stackIndex - 1
    polygons := s.polygons }

/-- `dfs(graph, start, node, parent, visited, stack, &stackIndex, polygons,
&polygonCount)`.  The parameter `parent` is never read by the source and is
left out.  The first argument after `start` is the recursion fuel. -/
def dfs (graph : Graph) (start : Nat) : Nat → Nat → DfsState → Option DfsState
  | 0, _, _ => none
  | fuel + 1, node, s =>
    if node < MAX_NODES ∧ s.stackIndex < MAX_NODES then
      match forEdges (dfsStep graph start (dfs graph start fuel)) (graph.edges node)
          (pushNode s node) with
      | none => none
      | some s2 => some (popNode s2 node)
    else none

/-- The root loop of `findShapes`, over the roots `i` of the list. -/
def rootLoop (graph : Graph) : List Nat → DfsState → Option DfsState
  | [], s => some s
  | i :: is, s =>
    match dfs graph i (MAX_NODES + 1) i s with
    | none => none
    | some s1 => rootLoop graph is s1

/-- `findShapes(graph, nodeCount, polygons, &polygonCount)` called, as `main`
does, with `polygonCount = 0`: the polygons written, in order.  (`stack` is
uninitialised in the source; no entry is read before it is written.) -/
def findShapes (graph : Graph) (nodeCount : Nat) : Option (List Polygon) :=
  (rootLoop graph (List.range nodeCount)
    { visited := fun _ => false, stack := fun _ => 0, stackIndex := 0, polygons := [] }).map
    (fun s => s.polygons)

/-! ## Deduplication -/

/-- Object representation of an `int` holding the non-negative value `x`:
four bytes, least significant first (little-endian, 32-bit `int`). -/
def intBytes (x : Nat) : List Nat :=
  [x % 256, x / 256 % 256, x / 65536 % 256, x / 16777216 % 256]

/-- The C string found at the address of an `int`: its bytes up to the first
zero byte.  (A value with four non-zero bytes has no terminator inside the
object; the model ends the string at the end of the object.) -/
def cString (bytes : List Nat) : List Nat := bytes.takeWhile (fun b => b != 0)

/-- The sign of `strcmp` on two C strings: bytewise, as unsigned characters. -/
def strcmp : List Nat → List Nat → Int
  | [], [] => 0
  | [], _ :: _ => -1
  | _ :: _, [] => 1
  | a :: as, b :: bs => if a < b then -1 else if b < a then 1 else strcmp as bs

/-- The comparator that `arePolygonsSame` hands to `qsort`: `strcmp` applied
to the addresses of two `int` elements. -/
def compareNodes (x y : Nat) : Int := strcmp (cString (intBytes x)) (cString (intBytes y))

/-- The order the comparator induces: `x` may stand before `y`. -/
def nodeLe (x y : Nat) : Prop := compareNodes x y ≤ 0

instance : DecidableRel nodeLe := fun x y => inferInstanceAs (Decidable (compareNodes x y ≤ 0))

/-- `qsort(nodes, nodeCount, sizeof(int), strcmp)`: a comparison sort driven by
the comparator (the C library does not fix the algorithm; a stable insertion
sort stands for it). -/
def qsortNodes (nodes : List Nat) : List Nat := nodes.insertionSort nodeLe

/-- `arePolygonsSame(poly1, poly2)`: different node counts give `false`;
otherwise both node arrays are copied, sorted with `qsort` and `strcmp`, and
compared with `memcmp`. -/
def arePolygonsSame (poly1 poly2 : Polygon) : Bool :=
  if poly1.nodeCount ≠ poly2.nodeCount then false
  else decide (qsortNodes poly1.nodes = qsortNodes poly2.nodes)

/-- The inner loop `for (j = i + 1; j < *polygonCount; j++)` of
`removeDuplicates`, entered at `j`: when `polygons[j]` is judged the same as
`polygons[i]` the later entries are shifted down over it, the count drops and
`j` stays; otherwise `j` advances.  The first argument bounds the number of
iterations. -/
def removeInner : Nat → List Polygon → Nat → Nat → List Polygon
  | 0, polygons, _, _ => polygons
  | fuel + 1, polygons, i, j =>
    if j < polygons.length then
      if arePolygonsSame (polygons.getD i ⟨[], 0⟩) (polygons.getD j ⟨[], 0⟩) then
        removeInner fuel (polygons.eraseIdx j) i j
      else removeInner fuel polygons i (j + 1)
    else polygons

/-- The outer loop `for (i = 0; i < *polygonCount; i++)` of `removeDuplicates`,
entered at `i`.  The first argument bounds the number of iterations. -/
def removeOuter : Nat → List Polygon → Nat → List Polygon
  | 0, polygons, _ => polygons
  | fuel + 1, polygons, i =>
    if i < polygons.length then
      removeOuter fuel (removeInner polygons.length polygons i (i + 1)) (i + 1)
    else polygons

/-- `removeDuplicates(polygons, &polygonCount)`: the live entries
`polygons[0 .. polygonCount)` after the call.  Each loop runs at most
`polygonCount` times, which is the bound given to it. -/
def removeDuplicates (polygons : List Polygon) : List Polygon :=
  removeOuter polygons.length polygons 0

/-! ## Properties of graphs and vertex sequences -/

/-- Every stored neighbour index of a vertex slot lies below `MAX_NODES`. -/
def InRange (graph : Graph) : Prop :=
  ∀ u, u < MAX_NODES → ∀ e ∈ graph.edges u, e.node < MAX_NODES

instance (graph : Graph) : Decidable (InRange graph) :=
  inferInstanceAs (Decidable (∀ u, u < MAX_NODES → ∀ e ∈ graph.edges u, e.node < MAX_NODES))

/-- Vertex `b` occurs as a neighbour in the incident list of `a`. -/
def Adj (graph : Graph) (a b : Nat) : Prop := ∃ e ∈ graph.edges a, e.node = b

instance (graph : Graph) (a b : Nat) : Decidable (Adj graph a b) :=
  inferInstanceAs (Decidable (∃ e ∈ graph.edges a, e.node = b))

/-- Every node of the sequence has its cyclic successor among its neighbours. -/
def Closed (graph : Graph) (vs : List Nat) : Prop :=
  ∀ i, i < vs.length → Adj graph (vs.getD i 0) (vs.getD ((i + 1) % vs.length) 0)

instance (graph : Graph) (vs : List Nat) : Decidable (Closed graph vs) :=
  inferInstanceAs (Decidable (∀ i, i < vs.length →
    Adj graph (vs.getD i 0) (vs.getD ((i + 1) % vs.length) 0)))

/-- First-match lookup of the perimeter loop: the first edge (lowest index) in
the incident list of `a` whose neighbour is `b`, if there is one. -/
def firstEdge (graph : Graph) (a b : Nat) : Option Edge :=
  (graph.edges a).find? (fun e => decide (e.node = b))

/-- The weight `weight(a, b)` of the perimeter contract: the weight of the
first edge in the incident list of `a` whose neighbour is `b`, if there is one. -/
def weight (graph : Graph) (a b : Nat) : Option Int :=
  (firstEdge graph a b).map (fun e => e.weight)

/-- What one inner scan of the perimeter loop adds: `weight(a, b)`, or nothing
when no edge is found. -/
def firstWeight (graph : Graph) (a b : Nat) : Int := (weight graph a b).getD 0

/-- No two `addEdge` calls join the same unordered pair of vertices. -/
def NoParallel (triples : List (Nat × Nat × Int)) : Prop :=
  triples.Pairwise (fun s t =>
    ¬ ((s.1 = t.1 ∧ s.2.1 = t.2.1) ∨ (s.1 = t.2.1 ∧ s.2.1 = t.1)))

instance (triples : List (Nat × Nat × Int)) : Decidable (NoParallel triples) :=
  inferInstanceAs (Decidable (List.Pairwise _ triples))

/-- The endpoints of every `addEdge` call lie below `MAX_NODES`. -/
def EndpointsInRange (triples : List (Nat × Nat × Int)) : Prop :=
  ∀ t ∈ triples, t.1 < MAX_NODES ∧ t.2.1 < MAX_NODES

instance (triples : List (Nat × Nat × Int)) : Decidable (EndpointsInRange triples) :=
  inferInstanceAs (Decidable (∀ t ∈ triples, t.1 < MAX_NODES ∧ t.2.1 < MAX_NODES))

/-! ## The search as a function of the path

The proofs relate the stateful `dfs` to `enum`, which computes the polygons a
call appends from the stack contents alone. -/

/-- What one edge contributes to the polygons found from `path` (the stack
including the current node), given the polygons `E` found by a deeper call. -/
def enumBody (graph : Graph) (start : Nat) (E : List Nat → Nat → List Polygon)
    (path : List Nat) (e : Edge) : List Polygon :=
  if e.node ∈ path then
    if e.node = start ∧ 3 ≤ path.length then [⟨path, perimeterLoop graph path⟩] else []
  else E path e.node

/-- The polygons a call of `dfs` at `node` appends when the stack holds `path`
on entry, as a function of the path alone. -/
def enum (graph : Graph) (start : Nat) : Nat → List Nat → Nat → List Polygon
  | 0, _, _ => []
  | fuel + 1, path, node =>
    (graph.edges node).flatMap (enumBody graph start (enum graph start fuel) (path ++ [node]))

/-- The list `findShapes` produces, as a function of the graph alone. -/
def allCycles (graph : Graph) (nodeCount : Nat) : List Polygon :=
  (List.range nodeCount).flatMap (fun i => enum graph i (MAX_NODES + 1) [] i)

/-- The visited array marks exactly the nodes on the stack. -/
def VisInv (s : DfsState) : Prop := ∀ x, s.visited x = true ↔ x ∈ stackList s

/-- The state is well formed: the visited array marks exactly the stack, the
stack holds no node twice, and every node on it is a valid slot index. -/
def StateOk (s : DfsState) : Prop :=
  VisInv s ∧ (stackList s).Nodup ∧ ∀ x ∈ stackList s, x < MAX_NODES

/-- Relation between the state at entry of a call and at its return: arrays
restored, `new` appended to the polygons. -/
def Post (s s1 : DfsState) (new : List Polygon) : Prop :=
  s1.visited = s.visited ∧ s1.stackIndex = s.stackIndex ∧
    (∀ i, i < s.stackIndex → s1.stack i = s.stack i) ∧ s1.polygons = s.polygons ++ new

/-! ## Deduplication as a function of the list -/

/-- Keep the head, drop from the tail everything judged the same as the head,
and go on with what is left: the list the two loops of `removeDuplicates`
leave, written as a recursion on the list. -/
def keepFirst (same : Polygon → Polygon → Bool) : List Polygon → List Polygon
  | [] => []
  | p :: ps => p :: keepFirst same (ps.filter (fun q => !same p q))
termination_by l => l.length
decreasing_by
  simp only [List.length_cons]
  exact Nat.lt_succ_of_le (List.length_filter_le _ _)

/-- The subsequence of `rest`, in order, of the polygons for which neither
`seen` nor an earlier position of `rest` holds a polygon that `same` relates to
them. -/
def keepUnseen (same : Polygon → Polygon → Bool) : List Polygon → List Polygon → List Polygon
  | _, [] => []
  | seen, p :: ps =>
    if seen.any (fun q => same q p) then keepUnseen same (seen ++ [p]) ps
    else p :: keepUnseen same (seen ++ [p]) ps

/-- Two polygons have the same vertex multiset. -/
def sameMultiset (p q : Polygon) : Bool := decide (p.nodes.Perm q.nodes)

/-! ## Sample inputs -/

/-- The triangle on the vertices 0, 1, 2 with unit weights. -/
def triangleGraph : Graph := buildGraph [(0, 1, 1), (1, 2, 1), (2, 0, 1)]

/-- The six polygons `findShapes` records on `triangleGraph`. -/
def trianglePolygons : List Polygon :=
  [⟨[0, 1, 2], 3⟩, ⟨[0, 2, 1], 3⟩, ⟨[1, 0, 2], 3⟩, ⟨[1, 2, 0], 3⟩, ⟨[2, 1, 0], 3⟩,
    ⟨[2, 0, 1], 3⟩]

/-- The triangle on the vertices 0, 1, 2 with the weights 1, 2, 4. -/
def weightedTriangle : List (Nat × Nat × Int) := [(0, 1, 1), (1, 2, 2), (2, 0, 4)]

/-- The six polygons `findShapes` records on the weighted triangle. -/
def weightedTrianglePolygons : List Polygon :=
  [⟨[0, 1, 2], 7⟩, ⟨[0, 2, 1], 7⟩, ⟨[1, 0, 2], 7⟩, ⟨[1, 2, 0], 7⟩, ⟨[2, 1, 0], 7⟩,
    ⟨[2, 0, 1], 7⟩]

/-- The complete graph on the vertices 0, 1, 2, 3 with unit weights. -/
def completeGraph4 : Graph :=
  buildGraph [(0, 1, 1), (0, 2, 1), (0, 3, 1), (1, 2, 1), (1, 3, 1), (2, 3, 1)]

/-- The five polygons left on `completeGraph4` after deduplication. -/
def completeGraph4Retained : List Polygon :=
  [⟨[0, 1, 2], 3⟩, ⟨[0, 1, 2, 3], 4⟩, ⟨[0, 1, 3], 3⟩, ⟨[0, 2, 3], 3⟩, ⟨[1, 2, 3], 3⟩]

/-- Three sample polygons: the second is a rotation of the first. -/
def samplePolygons : List Polygon := [⟨[0, 1, 2], 3⟩, ⟨[1, 2, 0], 3⟩, ⟨[0, 2, 3], 7⟩]

/-- Two polygons on the vertex set 0, 1, 256: a node sequence and its
reversal. -/
def widePolygons : List Polygon := [⟨[0, 1, 256], 3⟩, ⟨[256, 1, 0], 3⟩]

/-! ## Definitions for the graph store and the scenarios -/

/-- The state in which `findShapes` starts its root loop: `visited` all false,
`stackIndex = 0`, no polygon written (the entries of `stack` are not
initialised by the source and never read before they are written). -/
def initialState : DfsState :=
  { visited := fun _ => false, stack := fun _ => 0, stackIndex := 0, polygons := [] }

/-- The graph obtained from `createGraph(N)` by one `addEdge` call per triple. -/
def graphFrom (N : Nat) (triples : List (Nat × Nat × Int)) : Graph :=
  triples.foldl (fun g t => addEdge g t.1 t.2.1 t.2.2) (createGraph N)

/-- The call `addEdge(t.1, t.2.1, t.2.2)` joins the vertices `a` and `b`, in
either argument order. -/
def joins (a b : Nat) (t : Nat × Nat × Int) : Bool :=
  decide ((t.1 = a ∧ t.2.1 = b) ∨ (t.1 = b ∧ t.2.1 = a))

/-- The earliest `addEdge` call of the sequence that joins `a` and `b`. -/
def earliestJoin (triples : List (Nat × Nat × Int)) (a b : Nat) : Option (Nat × Nat × Int) :=
  triples.find? (joins a b)

/-- A triangle on 0, 1, 2 whose side 0-1 is stored twice: first with weight 5,
then with weight 1. -/
def parallelTriangle : List (Nat × Nat × Int) := [(0, 1, 5), (0, 1, 1), (1, 2, 1), (2, 0, 1)]

/-- The graph with the single edge 0-1 of weight 5. -/
def singleEdgeGraph : Graph := buildGraph [(0, 1, 5)]

/-! ## The calls made during a search -/

/-- The call `dfs` makes at `node` in state `s` (with `fuel + 1` left) reaches
the recursive call on `n1` in state `s1`: the entry checks pass, the edge loop
has run over the edges before some edge `e` and left the state `s1`, and `e`
leads to the unvisited neighbour `n1`. -/
def SubCall (graph : Graph) (start fuel node : Nat) (s : DfsState) (n1 : Nat)
    (s1 : DfsState) : Prop :=
  node < MAX_NODES ∧ s.stackIndex < MAX_NODES ∧
    ∃ pre e post, graph.edges node = pre ++ e :: post ∧
      forEdges (dfsStep graph start (dfs graph start fuel)) pre (pushNode s node) = some s1 ∧
      e.node < MAX_NODES ∧ s1.visited e.node = false ∧ n1 = e.node

/-- The calls of `dfs` made, directly or through other calls, by the call at
`node0` in state `s0` with fuel `fuel0`; a call is given by its fuel, its node
and the state at its entry. -/
inductive Calls (graph : Graph) (start fuel0 node0 : Nat) (s0 : DfsState) :
    Nat → Nat → DfsState → Prop
  | root : Calls graph start fuel0 node0 s0 fuel0 node0 s0
  | sub (fuel node : Nat) (s : DfsState) (n1 : Nat) (s1 : DfsState) :
      Calls graph start fuel0 node0 s0 (fuel + 1) node s →
      SubCall graph start fuel node s n1 s1 →
      Calls graph start fuel0 node0 s0 fuel n1 s1

/-- The number of vertex slots not marked in `visited`. -/
def unvisitedCount (s : DfsState) : Nat :=
  (List.range MAX_NODES).countP (fun x => !s.visited x)

/-! ## Scenario inputs -/

/-- The six orders of three `addEdge` calls. -/
def orders3 (a b c : Nat × Nat × Int) : List (List (Nat × Nat × Int)) :=
  [[a, b, c], [a, c, b], [b, a, c], [b, c, a], [c, a, b], [c, b, a]]

/-- Every way to build the unit triangle on 0, 1, 2: each side with its
endpoints in either order, the three calls in any order. -/
def triangleInputs : List (List (Nat × Nat × Int)) :=
  [(0, 1, 1), (1, 0, 1)].flatMap (fun a =>
    [(1, 2, 1), (2, 1, 1)].flatMap (fun b =>
      [(2, 0, 1), (0, 2, 1)].flatMap (fun c => orders3 a b c)))

/-- The square 0-1-2-3 with unit sides and the diagonal 0-2 of weight 5. -/
def squareDiagonal : List (Nat × Nat × Int) :=
  [(0, 1, 1), (1, 2, 1), (2, 3, 1), (3, 0, 1), (0, 2, 5)]

/-- The complete graph on the vertices 0..4, built with ten `addEdge` calls. -/
def completeGraph5 : List (Nat × Nat × Int) :=
  [(0, 1, 1), (0, 2, 1), (0, 3, 1), (0, 4, 1), (1, 2, 1), (1, 3, 1), (1, 4, 1), (2, 3, 1),
    (2, 4, 1), (3, 4, 1)]

/-- What the triangle scenario asks of a deduplicated list: exactly one
polygon, with three nodes, on the vertex set 0, 1, 2, of perimeter 3. -/
def IsOneTriangle (ps : List Polygon) : Prop :=
  ps.length = 1 ∧ ∀ p ∈ ps, p.nodeCount = 3 ∧ p.nodes.Perm [0, 1, 2] ∧ p.perimeter = 3

instance (ps : List Polygon) : Decidable (IsOneTriangle ps) :=
  inferInstanceAs (Decidable (ps.length = 1 ∧
    ∀ p ∈ ps, p.nodeCount = 3 ∧ p.nodes.Perm [0, 1, 2] ∧ p.perimeter = 3))

/-! ## Definitions for the multiplicity of rediscovery -/

/-- No incident list holds two entries with the same neighbour. -/
def DistinctNeighbours (graph : Graph) : Prop :=
  ∀ u, (graph.edges u).Pairwise (fun e e1 => e.node ≠ e1.node)

/-- No `addEdge` call joins a vertex to itself. -/
def NoSelfLoop (triples : List (Nat × Nat × Int)) : Prop :=
  ∀ t ∈ triples, t.1 ≠ t.2.1

instance (triples : List (Nat × Nat × Int)) : Decidable (NoSelfLoop triples) :=
  inferInstanceAs (Decidable (∀ t ∈ triples, t.1 ≠ t.2.1))

/-- The node sequences obtained from `vs` by starting at each of its
positions. -/
def rotationsOf (vs : List Nat) : List (List Nat) :=
  (List.range vs.length).map (fun i => vs.rotate i)

/-! ## Definitions for the capacity of the arrays and the range of `int` -/

/-- Every stored neighbour index, in whichever incident list, lies below
`MAX_NODES`. -/
def AllInRange (graph : Graph) : Prop := ∀ u, ∀ e ∈ graph.edges u, e.node < MAX_NODES

/-- The triangle on 0, 1, 2 whose side 0-1 has the largest `int`, 2147483647,
as its weight; the other two sides have weight 1. -/
def overflowTriangle : List (Nat × Nat × Int) := [(0, 1, 2147483647), (1, 2, 1), (2, 0, 1)]

/-! ## The search state and the pure enumerator -/

theorem stackList_length (s : DfsState) : (stackList s).length = s.stackIndex := by
  simp [stackList]

theorem stackList_congr {s s1 : DfsState} (hi : s1.stackIndex = s.stackIndex)
    (hs : ∀ i, i < s.stackIndex → s1.stack i = s.stack i) : stackList s1 = stackList s := by
  unfold stackList
  rw [hi]
  apply List.map_congr_left
  intro i hi'
  exact hs i (List.mem_range.mp hi')

theorem Post.stackList_eq {s s1 : DfsState} {new : List Polygon} (h : Post s s1 new) :
    stackList s1 = stackList s :=
  stackList_congr h.2.1 h.2.2.1

theorem Post.visInv {s s1 : DfsState} {new : List Polygon} (h : Post s s1 new)
    (hv : VisInv s) : VisInv s1 := by
  intro x
  rw [h.stackList_eq, h.1]
  exact hv x

theorem Post.refl (s : DfsState) : Post s s [] := by
  refine ⟨rfl, rfl, fun _ _ => rfl, by simp⟩

theorem Post.trans {s s1 s2 : DfsState} {n1 n2 : List Polygon} (h1 : Post s s1 n1)
    (h2 : Post s1 s2 n2) : Post s s2 (n1 ++ n2) := by
  refine ⟨h2.1.trans h1.1, h2.2.1.trans h1.2.1, ?_, ?_⟩
  · intro i hi
    rw [h2.2.2.1 i (by rw [h1.2.1]; exact hi), h1.2.2.1 i hi]
  · rw [h2.2.2.2, h1.2.2.2, List.append_assoc]

theorem dfsStep_spec (graph : Graph) (start : Nat) (recurse : Nat → DfsState → Option DfsState)
    (E : List Nat → Nat → List Polygon)
    (hrec : ∀ n s s1, VisInv s → s.visited n = false → recurse n s = some s1 →
      Post s s1 (E (stackList s) n))
    (s s1 : DfsState) (e : Edge) (hv : VisInv s)
    (h : dfsStep graph start recurse s e = some s1) :
    Post s s1 (enumBody graph start E (stackList s) e) := by
  unfold dfsStep at h
  unfold enumBody
  split at h
  · by_cases hvis : s.visited e.node = false
    · rw [if_pos hvis] at h
      have hnot : e.node ∉ stackList s := by
        intro hm
        have := (hv e.node).mpr hm
        rw [hvis] at this
        exact Bool.noConfusion this
      rw [if_neg hnot]
      exact hrec _ _ _ hv hvis h
    · rw [if_neg hvis] at h
      have hmem : e.node ∈ stackList s := by
        apply (hv e.node).mp
        cases hb : s.visited e.node
        · exact absurd hb hvis
        · rfl
      rw [if_pos hmem, stackList_length]
      by_cases hc : e.node = start ∧ 3 ≤ s.stackIndex
      · rw [if_pos hc] at h
        rw [if_pos hc]
        cases h
        exact ⟨rfl, rfl, fun _ _ => rfl, rfl⟩
      · rw [if_neg hc] at h
        rw [if_neg hc]
        cases h
        exact Post.refl s
  · exact Option.noConfusion h

theorem forEdges_spec (graph : Graph) (start : Nat) (recurse : Nat → DfsState → Option DfsState)
    (E : List Nat → Nat → List Polygon)
    (hrec : ∀ n s s1, VisInv s → s.visited n = false → recurse n s = some s1 →
      Post s s1 (E (stackList s) n)) :
    ∀ (es : List Edge) (s s1 : DfsState), VisInv s →
      forEdges (dfsStep graph start recurse) es s = some s1 →
      Post s s1 (es.flatMap (enumBody graph start E (stackList s))) := by
  intro es
  induction es with
  | nil =>
    intro s s1 _ h
    simp only [forEdges, Option.some.injEq] at h
    subst h
    simpa using Post.refl s
  | cons e es ih =>
    intro s s1 hv h
    unfold forEdges at h
    cases hstep : dfsStep graph start recurse s e with
    | none => rw [hstep] at h; exact Option.noConfusion h
    | some s2 =>
      rw [hstep] at h
      have h1 := dfsStep_spec graph start recurse E hrec s s2 e hv hstep
      have h2 := ih s2 s1 (h1.visInv hv) h
      rw [h1.stackList_eq] at h2
      rw [List.flatMap_cons]
      exact h1.trans h2

theorem stackList_pushNode (s : DfsState) (node : Nat) :
    stackList (pushNode s node) = stackList s ++ [node] := by
  unfold stackList pushNode
  simp only [List.range_succ, List.map_append, List.map_cons, List.map_nil, setAt, if_true]
  congr 1
  apply List.map_congr_left
  intro i hi
  have := List.mem_range.mp hi
  show (if i = s.stackIndex then node else s.stack i) = s.stack i
  rw [if_neg (by omega)]

theorem visInv_pushNode (s : DfsState) (node : Nat) (hv : VisInv s) :
    VisInv (pushNode s node) := by
  intro x
  rw [stackList_pushNode]
  simp only [pushNode, setAt, List.mem_append, List.mem_singleton]
  by_cases hx : x = node
  · simp [hx]
  · simp [hx, hv x]

theorem post_popNode (s s2 : DfsState) (node : Nat) (new : List Polygon)
    (hvis : s.visited node = false) (hp : Post (pushNode s node) s2 new) :
    Post s (popNode s2 node) new := by
  obtain ⟨hp1, hp2, hp3, hp4⟩ := hp
  refine ⟨?_, ?_, ?_, ?_⟩
  · funext x
    simp only [popNode, setAt, hp1, pushNode]
    by_cases hx : x = node
    · simp [hx, hvis]
    · simp [hx]
  · simp only [popNode, hp2, pushNode]
    omega
  · intro i hi
    simp only [popNode]
    rw [hp3 i (by simp only [pushNode]; omega)]
    simp only [pushNode, setAt, ite_eq_right_iff]
    intro h
    omega
  · simp only [popNode, hp4, pushNode]

theorem dfs_spec (graph : Graph) (start : Nat) :
    ∀ (fuel node : Nat) (s s1 : DfsState), VisInv s → s.visited node = false →
      dfs graph start fuel node s = some s1 →
      Post s s1 (enum graph start fuel (stackList s) node) := by
  intro fuel
  induction fuel with
  | zero =>
    intro node s s1 _ _ h
    exact Option.noConfusion h
  | succ fuel ih =>
    intro node s s1 hv hvis h
    unfold dfs at h
    split at h
    · split at h
      · exact Option.noConfusion h
      · rename_i s2 hloop
        cases h
        have hp := forEdges_spec graph start (dfs graph start fuel) (enum graph start fuel) ih
          _ _ _ (visInv_pushNode s node hv) hloop
        rw [stackList_pushNode] at hp
        exact post_popNode s s2 node _ hvis hp
    · exact Option.noConfusion h

theorem Post.stateOk {s s1 : DfsState} {new : List Polygon} (h : Post s s1 new)
    (hs : StateOk s) : StateOk s1 := by
  refine ⟨h.visInv hs.1, ?_, ?_⟩
  · rw [h.stackList_eq]; exact hs.2.1
  · rw [h.stackList_eq]; exact hs.2.2

theorem stateOk_pushNode (s : DfsState) (node : Nat) (hs : StateOk s)
    (hvis : s.visited node = false) (hlt : node < MAX_NODES) : StateOk (pushNode s node) := by
  have hnot : node ∉ stackList s := by
    intro hm
    have := (hs.1 node).mpr hm
    rw [hvis] at this
    exact Bool.noConfusion this
  refine ⟨visInv_pushNode s node hs.1, ?_, ?_⟩
  · rw [stackList_pushNode]
    exact List.Nodup.append hs.2.1 (List.nodup_singleton node)
      (by
        intro a ha hb
        rw [List.mem_singleton.mp hb] at ha
        exact hnot ha)
  · rw [stackList_pushNode]
    intro x hx
    rcases List.mem_append.mp hx with h | h
    · exact hs.2.2 x h
    · rw [List.mem_singleton.mp h]; exact hlt

theorem stackIndex_lt_of_stateOk (s : DfsState) (node : Nat) (hs : StateOk s)
    (hvis : s.visited node = false) (hlt : node < MAX_NODES) : s.stackIndex < MAX_NODES := by
  have h1 := stateOk_pushNode s node hs hvis hlt
  have hsub : stackList (pushNode s node) ⊆ List.range MAX_NODES := by
    intro x hx
    exact List.mem_range.mpr (h1.2.2 x hx)
  have hlen := (List.Nodup.subperm h1.2.1 hsub).length_le
  rw [stackList_length, List.length_range] at hlen
  simp only [pushNode] at hlen
  omega

theorem dfsStep_total (graph : Graph) (start : Nat)
    (recurse : Nat → DfsState → Option DfsState) (idx : Nat)
    (htot : ∀ n s, StateOk s → s.visited n = false → n < MAX_NODES → s.stackIndex = idx →
      ∃ s1, recurse n s = some s1)
    (s : DfsState) (e : Edge) (hs : StateOk s) (hidx : s.stackIndex = idx)
    (he : e.node < MAX_NODES) : ∃ s1, dfsStep graph start recurse s e = some s1 := by
  unfold dfsStep
  rw [if_pos he]
  by_cases hvis : s.visited e.node = false
  · rw [if_pos hvis]
    exact htot _ _ hs hvis he hidx
  · rw [if_neg hvis]
    by_cases hc : e.node = start ∧ 3 ≤ s.stackIndex
    · rw [if_pos hc]; exact ⟨_, rfl⟩
    · rw [if_neg hc]; exact ⟨_, rfl⟩

theorem forEdges_total (graph : Graph) (start : Nat)
    (recurse : Nat → DfsState → Option DfsState) (E : List Nat → Nat → List Polygon)
    (idx : Nat)
    (hrec : ∀ n s s1, VisInv s → s.visited n = false → recurse n s = some s1 →
      Post s s1 (E (stackList s) n))
    (htot : ∀ n s, StateOk s → s.visited n = false → n < MAX_NODES → s.stackIndex = idx →
      ∃ s1, recurse n s = some s1) :
    ∀ (es : List Edge) (s : DfsState), StateOk s → s.stackIndex = idx →
      (∀ e ∈ es, e.node < MAX_NODES) →
      ∃ s1, forEdges (dfsStep graph start recurse) es s = some s1 := by
  intro es
  induction es with
  | nil =>
    intro s _ _ _
    exact ⟨s, rfl⟩
  | cons e es ih =>
    intro s hs hidx hes
    obtain ⟨s2, h2⟩ := dfsStep_total graph start recurse idx htot s e hs hidx
      (hes e (List.mem_cons_self _ _))
    have hp := dfsStep_spec graph start recurse E hrec s s2 e hs.1 h2
    obtain ⟨s3, h3⟩ := ih s2 (hp.stateOk hs) (hp.2.1.trans hidx)
      (fun e1 he1 => hes e1 (List.mem_cons_of_mem _ he1))
    refine ⟨s3, ?_⟩
    unfold forEdges
    rw [h2]
    exact h3

theorem dfs_total (graph : Graph) (start : Nat) (hg : InRange graph) :
    ∀ (fuel node : Nat) (s : DfsState), StateOk s → s.visited node = false →
      node < MAX_NODES → MAX_NODES < fuel + s.stackIndex →
      ∃ s1, dfs graph start fuel node s = some s1 := by
  intro fuel
  induction fuel with
  | zero =>
    intro node s hs hvis hlt hfuel
    have := stackIndex_lt_of_stateOk s node hs hvis hlt
    omega
  | succ fuel ih =>
    intro node s hs hvis hlt hfuel
    have hidx := stackIndex_lt_of_stateOk s node hs hvis hlt
    obtain ⟨s2, h2⟩ := forEdges_total graph start (dfs graph start fuel)
      (enum graph start fuel) (s.stackIndex + 1) (dfs_spec graph start fuel)
      (fun n s1 hs1 hv1 hn hi => ih n s1 hs1 hv1 hn (by omega))
      (graph.edges node) (pushNode s node) (stateOk_pushNode s node hs hvis hlt) rfl
      (hg node hlt)
    refine ⟨popNode s2 node, ?_⟩
    unfold dfs
    rw [if_pos ⟨hlt, hidx⟩, h2]

/-! ## The root loop -/

theorem rootLoop_spec (graph : Graph) :
    ∀ (roots : List Nat) (s s1 : DfsState), s.stackIndex = 0 → (∀ x, s.visited x = false) →
      rootLoop graph roots s = some s1 →
      s1.polygons = s.polygons ++ roots.flatMap (fun i => enum graph i (MAX_NODES + 1) [] i) := by
  intro roots
  induction roots with
  | nil =>
    intro s s1 _ _ h
    simp only [rootLoop, Option.some.injEq] at h
    subst h
    simp
  | cons i roots ih =>
    intro s s1 hidx hvis h
    unfold rootLoop at h
    cases hd : dfs graph i (MAX_NODES + 1) i s with
    | none => rw [hd] at h; exact Option.noConfusion h
    | some s2 =>
      rw [hd] at h
      have hnil : stackList s = [] := by simp [stackList, hidx]
      have hv : VisInv s := by
        intro x
        rw [hnil, hvis x]
        simp
      have hp := dfs_spec graph i (MAX_NODES + 1) i s s2 hv (hvis i) hd
      rw [hnil] at hp
      have h3 := ih s2 s1 (hp.2.1.trans hidx) (fun x => by rw [hp.1]; exact hvis x) h
      rw [h3, hp.2.2.2, List.flatMap_cons, List.append_assoc]

theorem rootLoop_total (graph : Graph) (hg : InRange graph) :
    ∀ (roots : List Nat) (s : DfsState), s.stackIndex = 0 → (∀ x, s.visited x = false) →
      (∀ i ∈ roots, i < MAX_NODES) → ∃ s1, rootLoop graph roots s = some s1 := by
  intro roots
  induction roots with
  | nil =>
    intro s _ _ _
    exact ⟨s, rfl⟩
  | cons i roots ih =>
    intro s hidx hvis hr
    have hnil : stackList s = [] := by simp [stackList, hidx]
    have hs : StateOk s := by
      refine ⟨?_, ?_, ?_⟩
      · intro x
        rw [hnil, hvis x]
        simp
      · rw [hnil]; exact List.nodup_nil
      · rw [hnil]; intro x hx; cases hx
    obtain ⟨s2, h2⟩ := dfs_total graph i hg (MAX_NODES + 1) i s hs (hvis i)
      (hr i (List.mem_cons_self _ _)) (by omega)
    have hp := dfs_spec graph i (MAX_NODES + 1) i s s2 hs.1 (hvis i) h2
    obtain ⟨s3, h3⟩ := ih s2 (hp.2.1.trans hidx) (fun x => by rw [hp.1]; exact hvis x)
      (fun j hj => hr j (List.mem_cons_of_mem _ hj))
    refine ⟨s3, ?_⟩
    unfold rootLoop
    rw [h2]
    exact h3

/-- Whenever `findShapes` returns, its result is the list `allCycles`. -/
theorem findShapes_spec (graph : Graph) (nodeCount : Nat) (ps : List Polygon)
    (h : findShapes graph nodeCount = some ps) : ps = allCycles graph nodeCount := by
  unfold findShapes at h
  cases hr : rootLoop graph (List.range nodeCount)
      { visited := fun _ => false, stack := fun _ => 0, stackIndex := 0, polygons := [] } with
  | none => rw [hr] at h; exact Option.noConfusion h
  | some s1 =>
    rw [hr] at h
    simp only [Option.map_some', Option.some.injEq] at h
    have := rootLoop_spec graph _ _ s1 rfl (fun _ => rfl) hr
    rw [← h, this]
    simp [allCycles]

/-- On a graph with in-range neighbours and at most `MAX_NODES` roots,
`findShapes` returns, and returns `allCycles`. -/
theorem findShapes_total (graph : Graph) (nodeCount : Nat) (hg : InRange graph)
    (hn : nodeCount ≤ MAX_NODES) : findShapes graph nodeCount = some (allCycles graph nodeCount) := by
  obtain ⟨s1, h1⟩ := rootLoop_total graph hg (List.range nodeCount)
    { visited := fun _ => false, stack := fun _ => 0, stackIndex := 0, polygons := [] }
    rfl (fun _ => rfl) (fun i hi => by have := List.mem_range.mp hi; omega)
  have h2 : findShapes graph nodeCount = some s1.polygons := by
    unfold findShapes
    rw [h1]
    rfl
  rw [h2, findShapes_spec graph nodeCount _ h2]

/-! ## Soundness and completeness of the enumerator -/

theorem enum_sound (graph : Graph) (start : Nat) :
    ∀ (fuel : Nat) (path : List Nat) (node : Nat) (p : Polygon),
      (path ++ [node]).Nodup → List.Chain' (Adj graph) (path ++ [node]) →
      p ∈ enum graph start fuel path node →
      ∃ ext, p.nodes = path ++ node :: ext ∧ p.nodes.Nodup ∧
        List.Chain' (Adj graph) p.nodes ∧ 3 ≤ p.nodes.length ∧
        (∃ l, p.nodes.getLast? = some l ∧ Adj graph l start) ∧
        p.perimeter = perimeterLoop graph p.nodes := by
  intro fuel
  induction fuel with
  | zero =>
    intro path node p _ _ h
    simp [enum] at h
  | succ fuel ih =>
    intro path node p hnd hch h
    unfold enum at h
    obtain ⟨e, he, hp⟩ := List.mem_flatMap.mp h
    unfold enumBody at hp
    by_cases hmem : e.node ∈ path ++ [node]
    · rw [if_pos hmem] at hp
      by_cases hc : e.node = start ∧ 3 ≤ (path ++ [node]).length
      · rw [if_pos hc] at hp
        rw [List.mem_singleton] at hp
        subst hp
        refine ⟨[], rfl, hnd, hch, hc.2, ⟨node, ?_, e, he, hc.1⟩, rfl⟩
        simp
      · rw [if_neg hc] at hp
        cases hp
    · rw [if_neg hmem] at hp
      have hnd1 : (path ++ [node] ++ [e.node]).Nodup := by
        apply List.Nodup.append hnd (List.nodup_singleton _)
        intro a ha hb
        rw [List.mem_singleton.mp hb] at ha
        exact hmem ha
      have hch1 : List.Chain' (Adj graph) (path ++ [node] ++ [e.node]) := by
        apply List.Chain'.append hch (List.chain'_singleton _)
        intro x hx y hy
        rw [List.getLast?_concat] at hx
        simp only [List.head?_cons, Option.mem_def, Option.some.injEq] at hx hy
        subst hx
        subst hy
        exact ⟨e, he, rfl⟩
      obtain ⟨ext, h1, h2⟩ := ih (path ++ [node]) e.node p hnd1 hch1 hp
      refine ⟨e.node :: ext, ?_, h2⟩
      rw [h1]
      simp

theorem enum_complete (graph : Graph) (start : Nat) :
    ∀ (rest : List Nat) (fuel : Nat) (path : List Nat) (node : Nat),
      rest.length < fuel → start ∈ path ++ [node] → (path ++ node :: rest).Nodup →
      List.Chain' (Adj graph) (node :: rest) →
      (∃ l, (node :: rest).getLast? = some l ∧ Adj graph l start) →
      3 ≤ (path ++ node :: rest).length →
      (⟨path ++ node :: rest, perimeterLoop graph (path ++ node :: rest)⟩ : Polygon) ∈
        enum graph start fuel path node := by
  intro rest
  induction rest with
  | nil =>
    intro fuel path node hf hs _ _ hl hlen
    obtain ⟨f, rfl⟩ : ∃ f, fuel = f + 1 := ⟨fuel - 1, by omega⟩
    obtain ⟨l, hl1, e, he, hadj⟩ := hl
    simp only [List.getLast?_singleton, Option.some.injEq] at hl1
    subst hl1
    unfold enum
    refine List.mem_flatMap.mpr ⟨e, he, ?_⟩
    unfold enumBody
    rw [if_pos (by rw [hadj]; exact hs), if_pos ⟨hadj, hlen⟩]
    exact List.mem_singleton.mpr rfl
  | cons r rs ih =>
    intro fuel path node hf hs hnd hch hl hlen
    obtain ⟨f, rfl⟩ : ∃ f, fuel = f + 1 := ⟨fuel - 1, by simp at hf; omega⟩
    have hadj := (List.chain'_cons.mp hch).1
    have hch1 := (List.chain'_cons.mp hch).2
    obtain ⟨e, he, her⟩ := hadj
    have heq : path ++ node :: r :: rs = (path ++ [node]) ++ r :: rs := by simp
    have hnot : r ∉ path ++ [node] := by
      rw [heq] at hnd
      have hd := (List.nodup_append.mp hnd).2.2
      intro hr
      exact hd hr (List.mem_cons_self _ _)
    unfold enum
    refine List.mem_flatMap.mpr ⟨e, he, ?_⟩
    unfold enumBody
    rw [her, if_neg hnot, heq]
    apply ih f (path ++ [node]) r
    · simp at hf; omega
    · exact List.mem_append_left _ hs
    · rw [← heq]; exact hnd
    · exact hch1
    · obtain ⟨l, hl1, hl2⟩ := hl
      refine ⟨l, ?_, hl2⟩
      rw [← hl1]
      simp [List.getLast?_cons_cons]
    · rw [← heq]; exact hlen

theorem getD_last_of_getLast? (vs : List Nat) (l : Nat) (h : vs.getLast? = some l) :
    vs.getD (vs.length - 1) 0 = l := by
  rw [List.getD_eq_getElem?_getD, ← List.getLast?_eq_getElem?, h]
  rfl

theorem getD_zero_of_head? (vs : List Nat) (a : Nat) (h : vs.head? = some a) :
    vs.getD 0 0 = a := by
  cases vs with
  | nil => cases h
  | cons x xs =>
    simp only [List.head?_cons, Option.some.injEq] at h
    simp [h]

theorem closed_of_chain (graph : Graph) (vs : List Nat) (first last : Nat)
    (hh : vs.head? = some first) (hl : vs.getLast? = some last)
    (hch : List.Chain' (Adj graph) vs) (hc : Adj graph last first) : Closed graph vs := by
  intro i hi
  by_cases h : i + 1 < vs.length
  · rw [Nat.mod_eq_of_lt h, List.getD_eq_getElem _ _ hi, List.getD_eq_getElem _ _ h]
    have := List.chain'_iff_get.mp hch i (by omega)
    simpa using this
  · have hi1 : i = vs.length - 1 := by omega
    have hmod : (i + 1) % vs.length = 0 := by
      have : i + 1 = vs.length := by omega
      rw [this, Nat.mod_self]
    rw [hmod, hi1, getD_last_of_getLast? vs last hl, getD_zero_of_head? vs first hh]
    exact hc

theorem chain_of_index (graph : Graph) (vs : List Nat)
    (hadj : ∀ i, i + 1 < vs.length → Adj graph (vs.getD i 0) (vs.getD (i + 1) 0)) :
    List.Chain' (Adj graph) vs := by
  apply List.chain'_iff_get.mpr
  intro i hi
  have h1 : i + 1 < vs.length := by omega
  have := hadj i h1
  rw [List.getD_eq_getElem _ _ h1, List.getD_eq_getElem _ _ (by omega)] at this
  simpa using this

theorem firstEdge_isSome_of_adj (graph : Graph) (a b : Nat) (h : Adj graph a b) :
    (firstEdge graph a b).isSome = true := by
  obtain ⟨e, he, hb⟩ := h
  unfold firstEdge
  rw [List.find?_isSome]
  exact ⟨e, he, by simpa using hb⟩

/-- Every polygon of `allCycles` starts at a root below `nodeCount`, repeats no
node, has at least three nodes, is closed, and carries the perimeter the
perimeter loop computes on its node sequence. -/
theorem allCycles_sound (graph : Graph) (nodeCount : Nat) (p : Polygon)
    (hp : p ∈ allCycles graph nodeCount) :
    (∃ start, start < nodeCount ∧ p.nodes.head? = some start) ∧ p.nodes.Nodup ∧
      3 ≤ p.nodes.length ∧ Closed graph p.nodes ∧
      p.perimeter = perimeterLoop graph p.nodes := by
  unfold allCycles at hp
  obtain ⟨i, hi, hpi⟩ := List.mem_flatMap.mp hp
  obtain ⟨ext, h1, h2, h3, h4, ⟨l, hl1, hl2⟩, h6⟩ :=
    enum_sound graph i (MAX_NODES + 1) [] i p (by simp) (by simp) hpi
  have hh : p.nodes.head? = some i := by rw [h1]; rfl
  exact ⟨⟨i, List.mem_range.mp hi, hh⟩, h2, h4, closed_of_chain graph p.nodes i l hh hl1 h3 hl2, h6⟩

theorem lt_of_chain (graph : Graph) (hg : InRange graph) :
    ∀ (vs : List Nat) (a : Nat), a < MAX_NODES → List.Chain' (Adj graph) (a :: vs) →
      ∀ x ∈ a :: vs, x < MAX_NODES := by
  intro vs
  induction vs with
  | nil =>
    intro a ha _ x hx
    rw [List.mem_singleton.mp hx]; exact ha
  | cons b vs ih =>
    intro a ha hch x hx
    rcases List.mem_cons.mp hx with h | h
    · rw [h]; exact ha
    · obtain ⟨⟨e, he, heb⟩, hch1⟩ := List.chain'_cons.mp hch
      have hb : b < MAX_NODES := by rw [← heb]; exact hg a ha e he
      exact ih b hb hch1 x h

/-- Completeness of `allCycles`: every simple closed walk of the graph that
starts at a root below `nodeCount` is among its node sequences. -/
theorem allCycles_complete (graph : Graph) (nodeCount : Nat) (hg : InRange graph)
    (hn : nodeCount ≤ MAX_NODES) (vs : List Nat) (hk : 3 ≤ vs.length) (hnd : vs.Nodup)
    (h0 : vs.getD 0 0 < nodeCount)
    (hadj : ∀ i, i + 1 < vs.length → Adj graph (vs.getD i 0) (vs.getD (i + 1) 0))
    (hclose : Adj graph (vs.getD (vs.length - 1) 0) (vs.getD 0 0)) :
    (⟨vs, perimeterLoop graph vs⟩ : Polygon) ∈ allCycles graph nodeCount := by
  cases vs with
  | nil => simp at hk
  | cons v0 rest =>
    have hch := chain_of_index graph (v0 :: rest) hadj
    simp only [List.getD_cons_zero] at h0 hclose
    have hlt := lt_of_chain graph hg rest v0 (by omega) hch
    have hlen : (v0 :: rest).length ≤ MAX_NODES := by
      have hsub : (v0 :: rest) ⊆ List.range MAX_NODES :=
        fun x hx => List.mem_range.mpr (hlt x hx)
      have := (List.Nodup.subperm hnd hsub).length_le
      rwa [List.length_range] at this
    unfold allCycles
    refine List.mem_flatMap.mpr ⟨v0, List.mem_range.mpr h0, ?_⟩
    have := enum_complete graph v0 rest (MAX_NODES + 1) [] v0
      (by simp only [List.length_cons] at hlen; omega) (by simp) (by simpa using hnd) hch
      ⟨(v0 :: rest).getD ((v0 :: rest).length - 1) 0, ?_, hclose⟩ (by simpa using hk)
    · simpa using this
    · rw [List.getLast?_eq_getElem?, List.getD_eq_getElem?_getD]
      have : (v0 :: rest).length - 1 < (v0 :: rest).length := by simp
      rw [List.getElem?_eq_getElem this]
      rfl

/-! ## The deduplication loops -/

theorem removeInner_eq :
    ∀ (fuel : Nat) (polygons : List Polygon) (i j : Nat), i < j →
      polygons.length ≤ fuel + j →
      removeInner fuel polygons i j =
        polygons.take j ++
          (polygons.drop j).filter (fun q => !arePolygonsSame (polygons.getD i ⟨[], 0⟩) q) := by
  intro fuel
  induction fuel with
  | zero =>
    intro polygons i j _ hlen
    have hl : polygons.length ≤ j := by omega
    simp [removeInner, List.take_of_length_le hl, List.drop_of_length_le hl]
  | succ fuel ih =>
    intro polygons i j hij hlen
    unfold removeInner
    by_cases hj : j < polygons.length
    · rw [if_pos hj]
      have hdrop := List.drop_eq_getElem_cons hj
      have hgetj : polygons.getD j ⟨[], 0⟩ = polygons[j] := List.getD_eq_getElem _ _ hj
      have htl : (polygons.take j).length = j := by
        rw [List.length_take]; omega
      by_cases hsame : arePolygonsSame (polygons.getD i ⟨[], 0⟩) (polygons.getD j ⟨[], 0⟩) = true
      · rw [if_pos hsame]
        have he : polygons.eraseIdx j = polygons.take j ++ polygons.drop (j + 1) :=
          List.eraseIdx_eq_take_drop_succ _ _
        have hgi : (polygons.eraseIdx j).getD i ⟨[], 0⟩ = polygons.getD i ⟨[], 0⟩ := by
          rw [he, List.getD_eq_getElem?_getD, List.getD_eq_getElem?_getD,
            List.getElem?_append_left (by omega), List.getElem?_take_of_lt hij]
        rw [ih (polygons.eraseIdx j) i j hij (by rw [List.length_eraseIdx_of_lt hj]; omega), hgi,
          he, List.take_left' htl, List.drop_left' htl, hdrop, List.filter_cons]
        rw [hgetj] at hsame
        rw [if_neg (by rw [hsame]; exact Bool.false_ne_true)]
      · rw [if_neg hsame]
        rw [ih polygons i (j + 1) (by omega) (by omega), hdrop, List.filter_cons]
        rw [hgetj] at hsame
        simp only [Bool.not_eq_true] at hsame
        rw [if_pos (by rw [hsame]; rfl), ← List.take_concat_get _ _ hj, List.concat_eq_append,
          List.append_assoc]
        rfl
    · rw [if_neg hj]
      have hl : polygons.length ≤ j := by omega
      simp [List.take_of_length_le hl, List.drop_of_length_le hl]

theorem removeOuter_eq :
    ∀ (fuel : Nat) (polygons : List Polygon) (i : Nat), polygons.length ≤ fuel + i →
      removeOuter fuel polygons i =
        polygons.take i ++ keepFirst arePolygonsSame (polygons.drop i) := by
  intro fuel
  induction fuel with
  | zero =>
    intro polygons i hlen
    have hl : polygons.length ≤ i := by omega
    simp [removeOuter, List.take_of_length_le hl, List.drop_of_length_le hl, keepFirst]
  | succ fuel ih =>
    intro polygons i hlen
    unfold removeOuter
    by_cases hi : i < polygons.length
    · rw [if_pos hi]
      have hdrop := List.drop_eq_getElem_cons hi
      have hgeti : polygons.getD i ⟨[], 0⟩ = polygons[i] := List.getD_eq_getElem _ _ hi
      have htl : (polygons.take (i + 1)).length = i + 1 := by
        rw [List.length_take]; omega
      have hin := removeInner_eq polygons.length polygons i (i + 1) (by omega) (by omega)
      rw [hgeti] at hin
      rw [hin]
      have hlen2 : (polygons.take (i + 1) ++ (polygons.drop (i + 1)).filter
          (fun q => !arePolygonsSame polygons[i] q)).length ≤ fuel + (i + 1) := by
        rw [List.length_append, htl]
        have := List.length_filter_le (fun q => !arePolygonsSame polygons[i] q)
          (polygons.drop (i + 1))
        rw [List.length_drop] at this
        omega
      rw [ih _ (i + 1) hlen2, List.take_left' htl, List.drop_left' htl, hdrop, keepFirst,
        ← List.take_concat_get _ _ hi, List.concat_eq_append, List.append_assoc]
      rfl
    · rw [if_neg hi]
      have hl : polygons.length ≤ i := by omega
      simp [List.take_of_length_le hl, List.drop_of_length_le hl, keepFirst]

/-- The two loops of `removeDuplicates` leave `keepFirst` of the input. -/
theorem removeDuplicates_eq (polygons : List Polygon) :
    removeDuplicates polygons = keepFirst arePolygonsSame polygons := by
  unfold removeDuplicates
  rw [removeOuter_eq _ _ 0 (by omega)]
  simp

theorem keepFirst_sublist (same : Polygon → Polygon → Bool) (l : List Polygon) :
    (keepFirst same l).Sublist l := by
  induction l using keepFirst.induct same with
  | case1 => simp [keepFirst]
  | case2 p ps ih =>
    rw [keepFirst]
    exact List.Sublist.cons₂ p (ih.trans (List.filter_sublist _))

theorem keepFirst_pairwise (same : Polygon → Polygon → Bool) (l : List Polygon) :
    (keepFirst same l).Pairwise (fun a b => same a b = false) := by
  induction l using keepFirst.induct same with
  | case1 => simp [keepFirst]
  | case2 p ps ih =>
    rw [keepFirst]
    refine List.pairwise_cons.mpr ⟨?_, ih⟩
    intro q hq
    have := (keepFirst_sublist same _).subset hq
    have := (List.mem_filter.mp this).2
    simpa using this

theorem keepFirst_idem (same : Polygon → Polygon → Bool) (l : List Polygon) :
    keepFirst same (keepFirst same l) = keepFirst same l := by
  induction l using keepFirst.induct same with
  | case1 => simp [keepFirst]
  | case2 p ps ih =>
    rw [keepFirst, keepFirst]
    congr 1
    have hall : (keepFirst same (ps.filter (fun q => !same p q))).filter (fun q => !same p q) =
        keepFirst same (ps.filter (fun q => !same p q)) := by
      apply List.filter_eq_self.mpr
      intro q hq
      have := (keepFirst_sublist same _).subset hq
      exact (List.mem_filter.mp this).2
    rw [hall, ih]

theorem keepFirst_cover (same : Polygon → Polygon → Bool) (hrefl : ∀ p, same p p = true)
    (l : List Polygon) : ∀ p ∈ l, ∃ q ∈ keepFirst same l, same q p = true := by
  induction l using keepFirst.induct same with
  | case1 => intro p hp; cases hp
  | case2 p0 ps ih =>
    intro p hp
    rw [keepFirst]
    by_cases hs : same p0 p = true
    · exact ⟨p0, List.mem_cons_self _ _, hs⟩
    · rcases List.mem_cons.mp hp with h | h
      · rw [h] at hs
        exact absurd (hrefl p0) hs
      · have hf : p ∈ ps.filter (fun q => !same p0 q) := by
          apply List.mem_filter.mpr
          refine ⟨h, ?_⟩
          simpa using hs
        obtain ⟨q, hq, hqs⟩ := ih p hf
        exact ⟨q, List.mem_cons_of_mem _ hq, hqs⟩

theorem removeDuplicates_sublist (polygons : List Polygon) :
    (removeDuplicates polygons).Sublist polygons := by
  rw [removeDuplicates_eq]
  exact keepFirst_sublist _ _

/-! ## The equality test -/

theorem arePolygonsSame_refl (p : Polygon) : arePolygonsSame p p = true := by
  simp [arePolygonsSame]

theorem arePolygonsSame_symm (p q : Polygon) : arePolygonsSame p q = arePolygonsSame q p := by
  unfold arePolygonsSame
  by_cases h : p.nodeCount = q.nodeCount
  · simp only [h, ne_eq, not_true_eq_false, if_false]
    exact decide_eq_decide.mpr ⟨fun h => h.symm, fun h => h.symm⟩
  · have h2 : ¬ q.nodeCount = p.nodeCount := fun h2 => h h2.symm
    simp [h, h2]

theorem arePolygonsSame_iff (p q : Polygon) :
    arePolygonsSame p q = true ↔
      p.nodeCount = q.nodeCount ∧ qsortNodes p.nodes = qsortNodes q.nodes := by
  unfold arePolygonsSame
  by_cases h : p.nodeCount = q.nodeCount
  · simp [h]
  · simp [h]

/-- Polygons judged the same have node sequences that are permutations of one
another. -/
theorem perm_of_arePolygonsSame (p q : Polygon) (h : arePolygonsSame p q = true) :
    p.nodes.Perm q.nodes := by
  have h2 := ((arePolygonsSame_iff p q).mp h).2
  unfold qsortNodes at h2
  exact ((List.perm_insertionSort nodeLe p.nodes).symm.trans (h2 ▸ List.Perm.refl _)).trans
    (List.perm_insertionSort nodeLe q.nodes)

/-! ## The perimeter loop -/

theorem wrapInt_of_range (x : Int) (h1 : -2147483648 ≤ x) (h2 : x < 2147483648) :
    wrapInt x = x := by
  unfold wrapInt
  omega

theorem wrapInt_range (x : Int) : -2147483648 ≤ wrapInt x ∧ wrapInt x < 2147483648 := by
  unfold wrapInt
  omega

theorem wrapInt_wrapInt_add (x y : Int) : wrapInt (wrapInt x + y) = wrapInt (x + y) := by
  unfold wrapInt
  omega

theorem wrapInt_wrapInt (x : Int) : wrapInt (wrapInt x) = wrapInt x := by
  unfold wrapInt
  omega

/-- The scan adds, with the wrap-around of `int`, the weight of the first edge
to `target`; it leaves the perimeter as it is when there is none. -/
theorem edgeScan_eq (target : Nat) (es : List Edge) (perimeter : Int) :
    edgeScan target es perimeter =
      ((es.find? (fun e => decide (e.node = target))).map
        (fun e => wrapInt (perimeter + e.weight))).getD perimeter := by
  induction es with
  | nil => simp [edgeScan]
  | cons e es ih =>
    unfold edgeScan
    by_cases h : e.node = target
    · simp [h]
    · rw [if_neg h, ih, List.find?_cons]
      simp [h]

theorem foldl_wrap_eq_sum (f : Nat → Option Int) (l : List Nat) (acc : Int) :
    wrapInt (l.foldl (fun perimeter j => ((f j).map (fun w => wrapInt (perimeter + w))).getD
      perimeter) (wrapInt acc)) =
      l.foldl (fun perimeter j => ((f j).map (fun w => wrapInt (perimeter + w))).getD
        perimeter) (wrapInt acc) ∧
    l.foldl (fun perimeter j => ((f j).map (fun w => wrapInt (perimeter + w))).getD
      perimeter) (wrapInt acc) = wrapInt (acc + (l.map (fun j => (f j).getD 0)).sum) := by
  induction l generalizing acc with
  | nil => simp [wrapInt_wrapInt]
  | cons a l ih =>
    simp only [List.foldl_cons, List.map_cons, List.sum_cons]
    cases hfa : f a with
    | none =>
      simp only [Option.map_none', Option.getD_none, zero_add]
      exact ih acc
    | some w =>
      simp only [Option.map_some', Option.getD_some]
      rw [wrapInt_wrapInt_add, ← add_assoc]
      exact ih (acc + w)

/-- The perimeter loop computes the sum of the first-match weights of the
cyclically consecutive pairs, reduced into the range of `int`. -/
theorem perimeterLoop_eq (graph : Graph) (nodes : List Nat) :
    perimeterLoop graph nodes =
      wrapInt ((List.range nodes.length).map (fun j =>
        firstWeight graph (nodes.getD j 0) (nodes.getD ((j + 1) % nodes.length) 0))).sum := by
  unfold perimeterLoop
  have h : (fun (perimeter : Int) (j : Nat) =>
      edgeScan (nodes.getD ((j + 1) % nodes.length) 0) (graph.edges (nodes.getD j 0)) perimeter) =
      (fun perimeter j =>
        ((weight graph (nodes.getD j 0) (nodes.getD ((j + 1) % nodes.length) 0)).map
          (fun w => wrapInt (perimeter + w))).getD perimeter) := by
    funext perimeter j
    rw [edgeScan_eq]
    unfold weight firstEdge
    cases (graph.edges (nodes.getD j 0)).find?
      (fun e => decide (e.node = nodes.getD ((j + 1) % nodes.length) 0)) <;> rfl
  have h0 : (0 : Int) = wrapInt 0 := by decide
  rw [h]
  conv_lhs => rw [h0]
  rw [(foldl_wrap_eq_sum _ _ 0).2, zero_add]
  rfl

/-- When the sum of the first-match weights lies in the range of `int`, the
perimeter loop computes that sum. -/
theorem perimeterLoop_eq_of_range (graph : Graph) (nodes : List Nat)
    (h1 : -2147483648 ≤ ((List.range nodes.length).map (fun j =>
        firstWeight graph (nodes.getD j 0) (nodes.getD ((j + 1) % nodes.length) 0))).sum)
    (h2 : ((List.range nodes.length).map (fun j =>
        firstWeight graph (nodes.getD j 0) (nodes.getD ((j + 1) % nodes.length) 0))).sum <
        2147483648) :
    perimeterLoop graph nodes =
      ((List.range nodes.length).map (fun j =>
        firstWeight graph (nodes.getD j 0) (nodes.getD ((j + 1) % nodes.length) 0))).sum := by
  rw [perimeterLoop_eq, wrapInt_of_range _ h1 h2]

theorem cyclic_eq_zipWith (W : Nat → Nat → Int) (l : List Nat) :
    (List.range l.length).map (fun j => W (l.getD j 0) (l.getD ((j + 1) % l.length) 0)) =
      List.zipWith W l (l.rotate 1) := by
  apply List.ext_getElem
  · simp
  · intro n h1 h2
    have hn : n < l.length := by simpa using h1
    have hn1 : (n + 1) % l.length < l.length := Nat.mod_lt _ (by omega)
    rw [List.getElem_map, List.getElem_range, List.getElem_zipWith, List.getElem_rotate,
      List.getD_eq_getElem _ _ hn, List.getD_eq_getElem _ _ hn1]

theorem zipWith_rotate_sum (W : Nat → Nat → Int) (l : List Nat) (n : Nat) :
    (List.zipWith W (l.rotate n) ((l.rotate n).rotate 1)).sum =
      (List.zipWith W l (l.rotate 1)).sum := by
  have h : List.zipWith W (l.rotate n) ((l.rotate n).rotate 1) =
      (List.zipWith W l (l.rotate 1)).rotate n := by
    rw [List.zipWith_rotate_distrib W l (l.rotate 1) n (by simp), List.rotate_rotate,
      List.rotate_rotate, Nat.add_comm]
  rw [h]
  exact (List.rotate_perm _ _).sum_eq

theorem zipWith_reverse_sum (W : Nat → Nat → Int) (hW : ∀ a b, W a b = W b a) (l : List Nat) :
    (List.zipWith W l.reverse (l.reverse.rotate 1)).sum =
      (List.zipWith W l (l.rotate 1)).sum := by
  have hflip : (fun b a => W a b) = W := by
    funext b a
    exact hW a b
  have h1 : List.zipWith W l.reverse (l.reverse.rotate 1) =
      (List.zipWith W l (l.rotate (l.length - 1 % l.length))).reverse := by
    rw [List.rotate_reverse, List.reverse_zipWith (by simp)]
  have h2 : List.zipWith W l (l.rotate (l.length - 1 % l.length)) =
      (List.zipWith W l (l.rotate 1)).rotate (l.length - 1 % l.length) := by
    rw [List.zipWith_rotate_distrib W l (l.rotate 1) _ (by simp), List.rotate_rotate]
    have hl : l.rotate (1 + (l.length - 1 % l.length)) = l := by
      rcases Nat.lt_or_ge 1 l.length with h | h
      · rw [Nat.mod_eq_of_lt h]
        have : 1 + (l.length - 1) = l.length := by omega
        rw [this, List.rotate_length]
      · match l, h with
        | [], _ => simp
        | [a], _ => simp
    rw [hl, List.zipWith_comm, hflip]
  rw [h1, List.sum_reverse, h2]
  exact (List.rotate_perm _ _).sum_eq

/-- With a symmetric weight function the perimeter loop gives the same sum on
every rotation of a node sequence and on every rotation of its reversal. -/
theorem perimeterLoop_rotation_reversal (graph : Graph)
    (hW : ∀ a b, firstWeight graph a b = firstWeight graph b a) (l m : List Nat)
    (h : l.IsRotated m ∨ l.IsRotated m.reverse) :
    perimeterLoop graph l = perimeterLoop graph m := by
  rw [perimeterLoop_eq, perimeterLoop_eq, cyclic_eq_zipWith (firstWeight graph),
    cyclic_eq_zipWith (firstWeight graph)]
  congr 1
  rcases h with ⟨n, hn⟩ | ⟨n, hn⟩
  · rw [← hn, zipWith_rotate_sum]
  · have hm : m = (l.rotate n).reverse := by rw [hn, List.reverse_reverse]
    rw [hm, zipWith_reverse_sum _ hW, zipWith_rotate_sum]

/-! ## Graphs built by `addEdge` -/

theorem addEdge_edges (graph : Graph) (u v : Nat) (w : Int) (a : Nat) :
    (addEdge graph u v w).edges a =
      graph.edges a ++ (if a = u then [⟨v, w⟩] else []) ++ (if a = v then [⟨u, w⟩] else []) := by
  unfold addEdge setAt
  simp only
  by_cases hu : a = u
  · subst hu
    by_cases hv : a = v
    · subst hv
      simp
    · simp [hv]
  · by_cases hv : a = v
    · subst hv
      simp [hu]
    · simp [hu, hv]

theorem weight_addEdge (graph : Graph) (u v : Nat) (w : Int) (a b : Nat) :
    weight (addEdge graph u v w) a b =
      (weight graph a b).or (if (a = u ∧ b = v) ∨ (a = v ∧ b = u) then some w else none) := by
  unfold weight firstEdge
  rw [addEdge_edges, List.find?_append, List.find?_append]
  cases h : List.find? (fun e => decide (e.node = b)) (graph.edges a) with
  | some e => simp
  | none =>
    simp only [Option.none_or, Option.map_none']
    by_cases hu : a = u
    · subst hu
      by_cases hv : a = v
      · subst hv
        by_cases hb : b = a
        · subst hb
          simp [List.find?_cons]
        · have hb2 : ¬ a = b := fun h => hb h.symm
          simp [List.find?_cons, hb, hb2]
      · by_cases hb : b = v
        · subst hb
          simp [List.find?_cons, hv]
        · have hb2 : ¬ v = b := fun h => hb h.symm
          simp [List.find?_cons, hv, hb, hb2]
    · by_cases hv : a = v
      · subst hv
        by_cases hb : b = u
        · subst hb
          simp [List.find?_cons, hu]
        · have hb2 : ¬ u = b := fun h => hb h.symm
          simp [List.find?_cons, hu, hb, hb2]
      · simp [hu, hv]

theorem weight_symm_addEdge (graph : Graph) (u v : Nat) (w : Int)
    (h : ∀ a b, weight graph a b = weight graph b a) :
    ∀ a b, weight (addEdge graph u v w) a b = weight (addEdge graph u v w) b a := by
  intro a b
  rw [weight_addEdge, weight_addEdge, h a b]
  have hc : ((a = u ∧ b = v) ∨ (a = v ∧ b = u)) ↔ ((b = u ∧ a = v) ∨ (b = v ∧ a = u)) := by
    constructor
    · rintro (⟨h1, h2⟩ | ⟨h1, h2⟩)
      · exact Or.inr ⟨h2, h1⟩
      · exact Or.inl ⟨h2, h1⟩
    · rintro (⟨h1, h2⟩ | ⟨h1, h2⟩)
      · exact Or.inr ⟨h2, h1⟩
      · exact Or.inl ⟨h2, h1⟩
  simp only [hc]

theorem weight_symm_foldl (triples : List (Nat × Nat × Int)) :
    ∀ (graph : Graph), (∀ a b, weight graph a b = weight graph b a) →
      ∀ a b, weight (triples.foldl (fun g t => addEdge g t.1 t.2.1 t.2.2) graph) a b =
        weight (triples.foldl (fun g t => addEdge g t.1 t.2.1 t.2.2) graph) b a := by
  induction triples with
  | nil => intro graph h; exact h
  | cons t ts ih =>
    intro graph h
    rw [List.foldl_cons]
    exact ih _ (weight_symm_addEdge graph t.1 t.2.1 t.2.2 h)

/-- In a graph built by `addEdge` calls the first-match weight is the same in
both directions, parallel edges or not. -/
theorem firstWeight_symm_buildGraph (triples : List (Nat × Nat × Int)) (a b : Nat) :
    firstWeight (buildGraph triples) a b = firstWeight (buildGraph triples) b a := by
  unfold firstWeight buildGraph
  rw [weight_symm_foldl triples (createGraph MAX_NODES) (fun _ _ => rfl) a b]

theorem inRange_foldl (triples : List (Nat × Nat × Int)) :
    ∀ (graph : Graph), (∀ u, ∀ e ∈ graph.edges u, e.node < MAX_NODES) →
      EndpointsInRange triples →
      ∀ u, ∀ e ∈ (triples.foldl (fun g t => addEdge g t.1 t.2.1 t.2.2) graph).edges u,
        e.node < MAX_NODES := by
  induction triples with
  | nil => intro graph h _; exact h
  | cons t ts ih =>
    intro graph h ht
    rw [List.foldl_cons]
    apply ih
    · intro u e he
      rw [addEdge_edges] at he
      have ht1 := ht t (List.mem_cons_self _ _)
      rcases List.mem_append.mp he with he | he
      · rcases List.mem_append.mp he with he | he
        · exact h u e he
        · by_cases hu : u = t.1
          · rw [if_pos hu, List.mem_singleton] at he
            rw [he]; exact ht1.2
          · rw [if_neg hu] at he; cases he
      · by_cases hv : u = t.2.1
        · rw [if_pos hv, List.mem_singleton] at he
          rw [he]; exact ht1.1
        · rw [if_neg hv] at he; cases he
    · intro t1 ht1
      exact ht t1 (List.mem_cons_of_mem _ ht1)

/-- A graph built by `addEdge` calls with endpoints below `MAX_NODES` stores
only neighbour indices below `MAX_NODES`. -/
theorem inRange_buildGraph (triples : List (Nat × Nat × Int)) (h : EndpointsInRange triples) :
    InRange (buildGraph triples) := by
  intro u _ e he
  exact inRange_foldl triples (createGraph MAX_NODES) (fun _ _ he => by cases he) h u e he

theorem cString_intBytes (x : Nat) (h : x < 256) :
    cString (intBytes x) = if x = 0 then [] else [x] := by
  unfold cString intBytes
  have h1 : x % 256 = x := Nat.mod_eq_of_lt h
  have h2 : x / 256 = 0 := Nat.div_eq_of_lt h
  have h3 : x / 65536 = 0 := Nat.div_eq_of_lt (by omega)
  have h4 : x / 16777216 = 0 := Nat.div_eq_of_lt (by omega)
  rw [h1, h2, h3, h4]
  by_cases hx : x = 0
  · simp [hx, List.takeWhile]
  · have hb : (x != 0) = true := by simpa using hx
    simp [hx, List.takeWhile, hb]

/-- On vertex indices below 256 the `strcmp` comparator orders as the numbers
do. -/
theorem nodeLe_iff (x y : Nat) (hx : x < 256) (hy : y < 256) : nodeLe x y ↔ x ≤ y := by
  unfold nodeLe compareNodes
  rw [cString_intBytes x hx, cString_intBytes y hy]
  by_cases h0 : x = 0 <;> by_cases h1 : y = 0
  · simp [h0, h1, strcmp]
  · simp [h0, h1, strcmp]
  · simp [h0, h1, strcmp]
  · simp only [h0, h1, if_false, strcmp]
    by_cases hlt : x < y
    · simp [hlt]; omega
    · by_cases hgt : y < x
      · simp [hlt, hgt]
      · simp [hlt, hgt]; omega

theorem orderedInsert_congr (r r1 : Nat → Nat → Prop) [DecidableRel r] [DecidableRel r1]
    (a : Nat) (l : List Nat) (h : ∀ b ∈ l, (r a b ↔ r1 a b)) :
    l.orderedInsert r a = l.orderedInsert r1 a := by
  induction l with
  | nil => rfl
  | cons b l ih =>
    simp only [List.orderedInsert]
    by_cases hab : r a b
    · rw [if_pos hab, if_pos ((h b (List.mem_cons_self _ _)).mp hab)]
    · rw [if_neg hab, if_neg (fun h1 => hab ((h b (List.mem_cons_self _ _)).mpr h1)),
        ih (fun c hc => h c (List.mem_cons_of_mem _ hc))]

theorem insertionSort_congr (r r1 : Nat → Nat → Prop) [DecidableRel r] [DecidableRel r1]
    (l : List Nat) (h : ∀ a ∈ l, ∀ b ∈ l, (r a b ↔ r1 a b)) :
    l.insertionSort r = l.insertionSort r1 := by
  induction l with
  | nil => rfl
  | cons a l ih =>
    simp only [List.insertionSort]
    rw [ih (fun x hx y hy => h x (List.mem_cons_of_mem _ hx) y (List.mem_cons_of_mem _ hy))]
    apply orderedInsert_congr
    intro b hb
    have hb1 : b ∈ l := (List.perm_insertionSort r1 l).subset hb
    exact h a (List.mem_cons_self _ _) b (List.mem_cons_of_mem _ hb1)

/-- On vertex indices below 256 the `qsort` call sorts into ascending numeric
order. -/
theorem qsortNodes_eq (l : List Nat) (h : ∀ x ∈ l, x < 256) :
    qsortNodes l = l.insertionSort (fun a b => a ≤ b) := by
  unfold qsortNodes
  exact insertionSort_congr _ _ l (fun a ha b hb => nodeLe_iff a b (h a ha) (h b hb))

/-- On polygons whose vertex indices are all below 256, `arePolygonsSame`
answers `true` exactly when the node sequences are permutations of one
another. -/
theorem arePolygonsSame_iff_perm (p q : Polygon) (hp : ∀ x ∈ p.nodes, x < 256)
    (hq : ∀ x ∈ q.nodes, x < 256) :
    arePolygonsSame p q = true ↔ p.nodes.Perm q.nodes := by
  constructor
  · exact perm_of_arePolygonsSame p q
  · intro h
    rw [arePolygonsSame_iff, qsortNodes_eq _ hp, qsortNodes_eq _ hq]
    refine ⟨h.length_eq, ?_⟩
    apply List.eq_of_perm_of_sorted (r := fun a b : Nat => a ≤ b)
    · exact ((List.perm_insertionSort _ _).trans h).trans (List.perm_insertionSort _ _).symm
    · exact List.sorted_insertionSort _ _
    · exact List.sorted_insertionSort _ _

theorem arePolygonsSame_trans (p q r : Polygon) (h1 : arePolygonsSame p q = true)
    (h2 : arePolygonsSame q r = true) : arePolygonsSame p r = true := by
  rw [arePolygonsSame_iff] at h1 h2 ⊢
  exact ⟨h1.1.trans h2.1, h1.2.trans h2.2⟩

theorem keepUnseen_eq_keepFirst (same : Polygon → Polygon → Bool)
    (htrans : ∀ p q r, same p q = true → same q r = true → same p r = true) :
    ∀ (l seen : List Polygon),
      keepUnseen same seen l =
        keepFirst same (l.filter (fun q => !seen.any (fun s => same s q))) := by
  intro l
  induction l with
  | nil => intro seen; simp [keepUnseen, keepFirst]
  | cons p ps ih =>
    intro seen
    unfold keepUnseen
    by_cases hseen : seen.any (fun q => same q p) = true
    · rw [if_pos hseen, ih, List.filter_cons, if_neg (by simp [hseen])]
      congr 1
      apply List.filter_congr
      intro q _
      congr 1
      rw [List.any_append]
      by_cases hpq : same p q = true
      · obtain ⟨s, hs, hsp⟩ := List.any_eq_true.mp hseen
        have : seen.any (fun s => same s q) = true :=
          List.any_eq_true.mpr ⟨s, hs, htrans s p q hsp hpq⟩
        simp [this]
      · simp [hpq]
    · rw [if_neg hseen, ih, List.filter_cons, if_pos (by simpa using hseen), keepFirst,
        List.filter_filter]
      congr 2
      apply List.filter_congr
      intro q _
      rw [List.any_append]
      simp [Bool.and_comm]

/-- The loops of `removeDuplicates` leave exactly the polygons that no polygon
at an earlier position is judged the same as, in their original order. -/
theorem removeDuplicates_eq_keepUnseen (polygons : List Polygon) :
    removeDuplicates polygons = keepUnseen arePolygonsSame [] polygons := by
  rw [removeDuplicates_eq, keepUnseen_eq_keepFirst arePolygonsSame arePolygonsSame_trans]
  simp

theorem keepUnseen_congr (same same1 : Polygon → Polygon → Bool) :
    ∀ (l seen : List Polygon),
      (∀ a ∈ seen ++ l, ∀ b ∈ seen ++ l, same a b = same1 a b) →
      keepUnseen same seen l = keepUnseen same1 seen l := by
  intro l
  induction l with
  | nil => intro seen _; rfl
  | cons p ps ih =>
    intro seen h
    unfold keepUnseen
    have hany : seen.any (fun q => same q p) = seen.any (fun q => same1 q p) := by
      have hq : ∀ q ∈ seen, same q p = same1 q p := fun q hq =>
        h q (List.mem_append_left _ hq) p (List.mem_append_right _ (List.mem_cons_self _ _))
      rw [Bool.eq_iff_iff, List.any_eq_true, List.any_eq_true]
      constructor
      · rintro ⟨q, hq1, hq2⟩
        exact ⟨q, hq1, by rw [← hq q hq1]; exact hq2⟩
      · rintro ⟨q, hq1, hq2⟩
        exact ⟨q, hq1, by rw [hq q hq1]; exact hq2⟩
    have hrec := ih (seen ++ [p]) (by simpa using h)
    rw [hany, hrec]

/-- On lists of polygons whose vertex indices are all below 256 (every output
of `findShapes` is one), `removeDuplicates` leaves exactly the polygons for
which no polygon at an earlier position has the same vertex multiset. -/
theorem removeDuplicates_eq_keepUnseen_sameMultiset (polygons : List Polygon)
    (h : ∀ p ∈ polygons, ∀ x ∈ p.nodes, x < 256) :
    removeDuplicates polygons = keepUnseen sameMultiset [] polygons := by
  rw [removeDuplicates_eq_keepUnseen]
  apply keepUnseen_congr
  intro a ha b hb
  simp only [List.nil_append] at ha hb
  unfold sameMultiset
  by_cases hperm : a.nodes.Perm b.nodes
  · rw [(arePolygonsSame_iff_perm a b (h a ha) (h b hb)).mpr hperm]
    simp [hperm]
  · have : ¬ arePolygonsSame a b = true :=
      fun hs => hperm ((arePolygonsSame_iff_perm a b (h a ha) (h b hb)).mp hs)
    simp [hperm, this]

/-! ## Counting entries and the earliest call -/

theorem count_addEdge (graph : Graph) (u0 v0 : Nat) (w0 : Int) (u v : Nat) (w : Int) :
    ((addEdge graph u0 v0 w0).edges u).count ⟨v, w⟩ =
      (graph.edges u).count ⟨v, w⟩ + (if u = u0 ∧ v = v0 ∧ w = w0 then 1 else 0) +
        (if u = v0 ∧ v = u0 ∧ w = w0 then 1 else 0) := by
  rw [addEdge_edges, List.count_append, List.count_append]
  congr 1
  · congr 1
    by_cases hu : u = u0
    · rw [if_pos hu, List.count_singleton]
      by_cases h : v = v0 ∧ w = w0
      · obtain ⟨h1, h2⟩ := h
        subst h1 h2
        simp [hu]
      · have hne : ¬ ((⟨v0, w0⟩ : Edge) = ⟨v, w⟩) := by
          intro he
          injection he with h1 h2
          exact h ⟨h1.symm, h2.symm⟩
        have hne2 : ¬ (u = u0 ∧ v = v0 ∧ w = w0) := fun hh => h hh.2
        simp [hne, hne2]
    · simp [hu]
  · by_cases hu : u = v0
    · rw [if_pos hu, List.count_singleton]
      by_cases h : v = u0 ∧ w = w0
      · obtain ⟨h1, h2⟩ := h
        subst h1 h2
        simp [hu]
      · have hne : ¬ ((⟨u0, w0⟩ : Edge) = ⟨v, w⟩) := by
          intro he
          injection he with h1 h2
          exact h ⟨h1.symm, h2.symm⟩
        have hne2 : ¬ (u = v0 ∧ v = u0 ∧ w = w0) := fun hh => h hh.2
        simp [hne, hne2]
    · simp [hu]

theorem count_symm_foldl (triples : List (Nat × Nat × Int)) :
    ∀ (graph : Graph),
      (∀ u v w, (graph.edges u).count ⟨v, w⟩ = (graph.edges v).count ⟨u, w⟩) →
      ∀ (u v : Nat) (w : Int),
        ((triples.foldl (fun g t => addEdge g t.1 t.2.1 t.2.2) graph).edges u).count ⟨v, w⟩ =
          ((triples.foldl (fun g t => addEdge g t.1 t.2.1 t.2.2) graph).edges v).count ⟨u, w⟩ := by
  induction triples with
  | nil => intro graph h; exact h
  | cons t ts ih =>
    intro graph h
    rw [List.foldl_cons]
    apply ih
    intro u v w
    rw [count_addEdge, count_addEdge, h u v w]
    have h1 : (u = t.1 ∧ v = t.2.1 ∧ w = t.2.2) ↔ (v = t.2.1 ∧ u = t.1 ∧ w = t.2.2) :=
      ⟨fun ⟨a, b, c⟩ => ⟨b, a, c⟩, fun ⟨a, b, c⟩ => ⟨b, a, c⟩⟩
    have h2 : (u = t.2.1 ∧ v = t.1 ∧ w = t.2.2) ↔ (v = t.1 ∧ u = t.2.1 ∧ w = t.2.2) :=
      ⟨fun ⟨a, b, c⟩ => ⟨b, a, c⟩, fun ⟨a, b, c⟩ => ⟨b, a, c⟩⟩
    simp only [h1, h2]
    omega

theorem weight_foldl (triples : List (Nat × Nat × Int)) (a b : Nat) :
    ∀ (graph : Graph),
      weight (triples.foldl (fun g t => addEdge g t.1 t.2.1 t.2.2) graph) a b =
        (weight graph a b).or ((triples.find? (joins a b)).map (fun t => t.2.2)) := by
  induction triples with
  | nil => intro graph; simp
  | cons t ts ih =>
    intro graph
    rw [List.foldl_cons, ih, weight_addEdge, List.find?_cons]
    by_cases hj : (a = t.1 ∧ b = t.2.1) ∨ (a = t.2.1 ∧ b = t.1)
    · have hj2 : joins a b t = true := by
        unfold joins
        rcases hj with ⟨h1, h2⟩ | ⟨h1, h2⟩
        · simp [h1, h2]
        · simp [h1, h2]
      rw [if_pos hj, hj2]
      cases weight graph a b <;> simp
    · have hj2 : joins a b t = false := by
        unfold joins
        rw [decide_eq_false_iff_not]
        rintro (⟨h1, h2⟩ | ⟨h1, h2⟩)
        · exact hj (Or.inl ⟨h1.symm, h2.symm⟩)
        · exact hj (Or.inr ⟨h2.symm, h1.symm⟩)
      rw [if_neg hj, hj2]
      cases weight graph a b <;> simp

/-- In a graph built by `addEdge` calls the first-match lookup of `b` in the
list of `a` returns the weight of the earliest call joining `a` and `b`. -/
theorem weight_buildGraph (triples : List (Nat × Nat × Int)) (a b : Nat) :
    weight (buildGraph triples) a b = (earliestJoin triples a b).map (fun t => t.2.2) := by
  unfold buildGraph earliestJoin
  rw [weight_foldl]
  rfl

theorem joins_comm (a b : Nat) (t : Nat × Nat × Int) : joins a b t = joins b a t := by
  unfold joins
  exact decide_eq_decide.mpr ⟨fun h => h.symm, fun h => h.symm⟩

theorem earliestJoin_comm (triples : List (Nat × Nat × Int)) (a b : Nat) :
    earliestJoin triples a b = earliestJoin triples b a := by
  unfold earliestJoin
  congr 1
  funext t
  exact joins_comm a b t

/-! ## Frame of a call, calls of a search -/

theorem dfsStep_frame (graph : Graph) (start : Nat)
    (recurse : Nat → DfsState → Option DfsState)
    (hrec : ∀ n s s1, s.visited n = false → recurse n s = some s1 → ∃ new, Post s s1 new)
    (s s1 : DfsState) (e : Edge) (h : dfsStep graph start recurse s e = some s1) :
    ∃ new, Post s s1 new := by
  unfold dfsStep at h
  split at h
  · by_cases hvis : s.visited e.node = false
    · rw [if_pos hvis] at h
      exact hrec _ _ _ hvis h
    · rw [if_neg hvis] at h
      by_cases hc : e.node = start ∧ 3 ≤ s.stackIndex
      · rw [if_pos hc] at h
        cases h
        exact ⟨_, rfl, rfl, fun _ _ => rfl, rfl⟩
      · rw [if_neg hc] at h
        cases h
        exact ⟨[], Post.refl s⟩
  · exact Option.noConfusion h

theorem forEdges_frame (graph : Graph) (start : Nat)
    (recurse : Nat → DfsState → Option DfsState)
    (hrec : ∀ n s s1, s.visited n = false → recurse n s = some s1 → ∃ new, Post s s1 new) :
    ∀ (es : List Edge) (s s1 : DfsState),
      forEdges (dfsStep graph start recurse) es s = some s1 → ∃ new, Post s s1 new := by
  intro es
  induction es with
  | nil =>
    intro s s1 h
    simp only [forEdges, Option.some.injEq] at h
    subst h
    exact ⟨[], Post.refl s⟩
  | cons e es ih =>
    intro s s1 h
    unfold forEdges at h
    cases hstep : dfsStep graph start recurse s e with
    | none => rw [hstep] at h; exact Option.noConfusion h
    | some s2 =>
      rw [hstep] at h
      obtain ⟨n1, h1⟩ := dfsStep_frame graph start recurse hrec s s2 e hstep
      obtain ⟨n2, h2⟩ := ih s2 s1 h
      exact ⟨n1 ++ n2, h1.trans h2⟩

/-- A call of `dfs` on a node that is unvisited at entry returns with `visited`
and `stackIndex` as they were, the stack below the entry index untouched, and
the polygon list extended at its end; no assumption on the state is needed. -/
theorem dfs_frame (graph : Graph) (start : Nat) :
    ∀ (fuel node : Nat) (s s1 : DfsState), s.visited node = false →
      dfs graph start fuel node s = some s1 → ∃ new, Post s s1 new := by
  intro fuel
  induction fuel with
  | zero =>
    intro node s s1 _ h
    exact Option.noConfusion h
  | succ fuel ih =>
    intro node s s1 hvis h
    unfold dfs at h
    split at h
    · split at h
      · exact Option.noConfusion h
      · rename_i s2 hloop
        cases h
        obtain ⟨new, hp⟩ := forEdges_frame graph start (dfs graph start fuel) ih _ _ _ hloop
        exact ⟨new, post_popNode s s2 node _ hvis hp⟩
    · exact Option.noConfusion h

theorem rootLoop_frame (graph : Graph) :
    ∀ (roots : List Nat) (s s1 : DfsState), s.stackIndex = 0 → (∀ x, s.visited x = false) →
      rootLoop graph roots s = some s1 →
      s1.stackIndex = 0 ∧ (∀ x, s1.visited x = false) := by
  intro roots
  induction roots with
  | nil =>
    intro s s1 hi hv h
    simp only [rootLoop, Option.some.injEq] at h
    subst h
    exact ⟨hi, hv⟩
  | cons i roots ih =>
    intro s s1 hidx hvis h
    unfold rootLoop at h
    cases hd : dfs graph i (MAX_NODES + 1) i s with
    | none => rw [hd] at h; exact Option.noConfusion h
    | some s2 =>
      rw [hd] at h
      obtain ⟨new, hp⟩ := dfs_frame graph i (MAX_NODES + 1) i s s2 (hvis i) hd
      exact ih s2 s1 (hp.2.1.trans hidx) (fun x => by rw [hp.1]; exact hvis x) h

theorem findShapes_eq_rootLoop (graph : Graph) (nodeCount : Nat) :
    findShapes graph nodeCount =
      (rootLoop graph (List.range nodeCount) initialState).map (fun s => s.polygons) := rfl

theorem stateOk_of_empty (s : DfsState) (hidx : s.stackIndex = 0)
    (hvis : ∀ x, s.visited x = false) : StateOk s := by
  have hnil : stackList s = [] := by simp [stackList, hidx]
  refine ⟨?_, ?_, ?_⟩
  · intro x
    rw [hnil, hvis x]
    simp
  · rw [hnil]; exact List.nodup_nil
  · rw [hnil]; intro x hx; cases hx

/-- A recursive call is entered in a well-formed state, on an unvisited node
below `MAX_NODES`, with the stack one entry higher than in the calling call. -/
theorem subCall_stateOk (graph : Graph) (start fuel node : Nat) (s : DfsState) (n1 : Nat)
    (s1 : DfsState) (hs : StateOk s) (hvis : s.visited node = false)
    (h : SubCall graph start fuel node s n1 s1) :
    StateOk s1 ∧ s1.visited n1 = false ∧ n1 < MAX_NODES ∧
      s1.stackIndex = s.stackIndex + 1 ∧ s1.visited = setAt s.visited node true := by
  obtain ⟨hn, _, pre, e, post, _, hloop, he, hv1, hn1⟩ := h
  have hok := stateOk_pushNode s node hs hvis hn
  have hp := forEdges_spec graph start (dfs graph start fuel) (enum graph start fuel)
    (dfs_spec graph start fuel) pre _ s1 hok.1 hloop
  refine ⟨hp.stateOk hok, ?_, ?_, ?_, ?_⟩
  · rw [hn1]; exact hv1
  · rw [hn1]; exact he
  · rw [hp.2.1]; rfl
  · rw [hp.1]; rfl

/-- Every call made during a search that starts in a well-formed state on an
unvisited node is itself entered well-formed, and the fuel left always exceeds
the room left on the stack. -/
theorem calls_invariant (graph : Graph) (start fuel0 node0 : Nat) (s0 : DfsState)
    (hs0 : StateOk s0) (hv0 : s0.visited node0 = false) (hn0 : node0 < MAX_NODES)
    (hf0 : MAX_NODES < fuel0 + s0.stackIndex) :
    ∀ (fuel node : Nat) (s : DfsState), Calls graph start fuel0 node0 s0 fuel node s →
      StateOk s ∧ s.visited node = false ∧ node < MAX_NODES ∧
        MAX_NODES < fuel + s.stackIndex := by
  intro fuel node s h
  induction h with
  | root => exact ⟨hs0, hv0, hn0, hf0⟩
  | sub fuel node s n1 s1 _ hsub ih =>
    obtain ⟨hs, hv, _, hf⟩ := ih
    obtain ⟨h1, h2, h3, h4, _⟩ := subCall_stateOk graph start fuel node s n1 s1 hs hv hsub
    exact ⟨h1, h2, h3, by omega⟩

theorem countP_lt_of_flip (p q : Nat → Bool) (l : List Nat) (x : Nat) (hx : x ∈ l)
    (hle : ∀ y, q y = true → p y = true) (hp : p x = true) (hq : q x = false) :
    l.countP q < l.countP p := by
  obtain ⟨l1, l2, rfl⟩ := List.mem_iff_append.mp hx
  rw [List.countP_append, List.countP_append, List.countP_cons, List.countP_cons]
  have h1 := List.countP_mono_left (l := l1) (fun y _ => hle y)
  have h2 := List.countP_mono_left (l := l2) (fun y _ => hle y)
  simp only [hp, hq, if_true]
  simp only [Bool.false_eq_true, if_false]
  omega

/-- A recursive call has strictly fewer unvisited vertices than its caller. -/
theorem subCall_unvisited_lt (graph : Graph) (start fuel node : Nat) (s : DfsState) (n1 : Nat)
    (s1 : DfsState) (hs : StateOk s) (hvis : s.visited node = false)
    (h : SubCall graph start fuel node s n1 s1) : unvisitedCount s1 < unvisitedCount s := by
  have hn := h.1
  obtain ⟨_, _, _, _, hv⟩ := subCall_stateOk graph start fuel node s n1 s1 hs hvis h
  unfold unvisitedCount
  rw [hv]
  apply countP_lt_of_flip _ _ _ node (List.mem_range.mpr hn)
  · intro y hy
    simp only [setAt] at hy
    by_cases hyn : y = node
    · simp [hyn] at hy
    · simpa [hyn] using hy
  · simp [hvis]
  · simp [setAt]

/-! ## Roots without edges -/

theorem enum_of_no_edges (graph : Graph) (start fuel : Nat) (path : List Nat) (node : Nat)
    (h : graph.edges node = []) : enum graph start fuel path node = [] := by
  cases fuel with
  | zero => rfl
  | succ fuel =>
    unfold enum
    rw [h]
    rfl

theorem allCycles_succ (graph : Graph) (n : Nat) :
    allCycles graph (n + 1) = allCycles graph n ++ enum graph n (MAX_NODES + 1) [] n := by
  unfold allCycles
  rw [List.range_succ, List.flatMap_append]
  simp

/-- Roots whose edge lists are empty add nothing to the list of `findShapes`. -/
theorem allCycles_of_isolated (graph : Graph) (m : Nat) :
    ∀ (n : Nat), m ≤ n → (∀ i, m ≤ i → i < n → graph.edges i = []) →
      allCycles graph n = allCycles graph m := by
  intro n
  induction n with
  | zero =>
    intro hmn _
    have : m = 0 := by omega
    rw [this]
  | succ n ih =>
    intro hmn hiso
    by_cases hm : m = n + 1
    · rw [hm]
    · rw [allCycles_succ, enum_of_no_edges graph n _ [] n (hiso n (by omega) (by omega)),
        List.append_nil]
      exact ih (by omega) (fun i h1 h2 => hiso i h1 (by omega))

theorem edges_foldl_nil (triples : List (Nat × Nat × Int)) (i : Nat)
    (h : ∀ t ∈ triples, t.1 ≠ i ∧ t.2.1 ≠ i) :
    ∀ (graph : Graph), graph.edges i = [] →
      (triples.foldl (fun g t => addEdge g t.1 t.2.1 t.2.2) graph).edges i = [] := by
  induction triples with
  | nil => intro graph hg; exact hg
  | cons t ts ih =>
    intro graph hg
    rw [List.foldl_cons]
    apply ih (fun t1 ht1 => h t1 (List.mem_cons_of_mem _ ht1))
    have ht := h t (List.mem_cons_self _ _)
    rw [addEdge_edges, hg, if_neg (fun hh => ht.1 hh.symm), if_neg (fun hh => ht.2 hh.symm)]
    rfl

/-- A graph built by `addEdge` calls with endpoints below `m`, searched with
`n` roots, `m ≤ n ≤ MAX_NODES`: `findShapes` returns what the first `m` roots
yield. -/
theorem findShapes_buildGraph_small (triples : List (Nat × Nat × Int)) (m n : Nat)
    (hm : ∀ t ∈ triples, t.1 < m ∧ t.2.1 < m) (hmn : m ≤ n) (hn : n ≤ MAX_NODES) :
    findShapes (buildGraph triples) n = some (allCycles (buildGraph triples) m) := by
  have hr : EndpointsInRange triples := fun t ht =>
    ⟨by have := (hm t ht).1; omega, by have := (hm t ht).2; omega⟩
  rw [findShapes_total _ n (inRange_buildGraph triples hr) hn]
  congr 1
  apply allCycles_of_isolated _ m n hmn
  intro i hi _
  apply edges_foldl_nil triples i _ _ rfl
  intro t ht
  have := hm t ht
  exact ⟨by omega, by omega⟩

/-! ## Rotations of closed sequences, order of the recorded polygons -/

theorem getD_rotate (vs : List Nat) (n i : Nat) (hi : i < vs.length) :
    (vs.rotate n).getD i 0 = vs.getD ((i + n) % vs.length) 0 := by
  have h1 : i < (vs.rotate n).length := by rw [List.length_rotate]; exact hi
  have h2 : (i + n) % vs.length < vs.length := Nat.mod_lt _ (by omega)
  rw [List.getD_eq_getElem _ _ h1, List.getD_eq_getElem _ _ h2, List.getElem_rotate]

theorem closed_rotate (graph : Graph) (vs : List Nat) (n : Nat) (h : Closed graph vs) :
    Closed graph (vs.rotate n) := by
  intro i hi
  rw [List.length_rotate] at hi ⊢
  have hk : 0 < vs.length := by omega
  rw [getD_rotate vs n i hi, getD_rotate vs n _ (Nat.mod_lt _ hk)]
  have := h ((i + n) % vs.length) (Nat.mod_lt _ hk)
  have e : ((i + n) % vs.length + 1) % vs.length = ((i + 1) % vs.length + n) % vs.length := by
    rw [Nat.mod_add_mod, Nat.mod_add_mod]
    congr 1
    omega
  rwa [e] at this

/-- Completeness of `allCycles`, for a closed sequence. -/
theorem allCycles_complete_closed (graph : Graph) (nodeCount : Nat) (hg : InRange graph)
    (hn : nodeCount ≤ MAX_NODES) (vs : List Nat) (hk : 3 ≤ vs.length) (hnd : vs.Nodup)
    (h0 : vs.getD 0 0 < nodeCount) (hc : Closed graph vs) :
    (⟨vs, perimeterLoop graph vs⟩ : Polygon) ∈ allCycles graph nodeCount := by
  have hadj : ∀ i, i + 1 < vs.length → Adj graph (vs.getD i 0) (vs.getD (i + 1) 0) := by
    intro i hi
    have := hc i (by omega)
    rwa [Nat.mod_eq_of_lt hi] at this
  have hclose : Adj graph (vs.getD (vs.length - 1) 0) (vs.getD 0 0) := by
    have := hc (vs.length - 1) (by omega)
    have hm : (vs.length - 1 + 1) % vs.length = 0 := by
      rw [Nat.sub_add_cancel (by omega), Nat.mod_self]
    rwa [hm] at this
  exact allCycles_complete graph nodeCount hg hn vs hk hnd h0 hadj hclose

theorem nodes_lt_of_closed (graph : Graph) (hg : InRange graph) (vs : List Nat)
    (hc : Closed graph vs) (h0 : vs.getD 0 0 < MAX_NODES) :
    ∀ i, i < vs.length → vs.getD i 0 < MAX_NODES := by
  intro i
  induction i with
  | zero => intro _; exact h0
  | succ i ih =>
    intro hi
    have hprev := ih (by omega)
    obtain ⟨e, he, hen⟩ := hc i (by omega)
    rw [Nat.mod_eq_of_lt hi] at hen
    rw [← hen]
    exact hg _ hprev e he

theorem mem_lt_of_closed (graph : Graph) (hg : InRange graph) (vs : List Nat)
    (hc : Closed graph vs) (h0 : vs.getD 0 0 < MAX_NODES) : ∀ x ∈ vs, x < MAX_NODES := by
  intro x hx
  obtain ⟨i, hi, rfl⟩ := List.getElem_of_mem hx
  have := nodes_lt_of_closed graph hg vs hc h0 i hi
  rwa [List.getD_eq_getElem _ _ hi] at this

theorem head_of_mem_enum_root (graph : Graph) (i fuel : Nat) (p : Polygon)
    (hp : p ∈ enum graph i fuel [] i) : p.nodes.head? = some i := by
  obtain ⟨ext, h1, _⟩ := enum_sound graph i fuel [] i p (by simp) (by simp) hp
  rw [h1]
  rfl

theorem getD_zero_of_mem_allCycles (graph : Graph) (n : Nat) (p : Polygon)
    (hp : p ∈ allCycles graph n) : p.nodes.getD 0 0 < n := by
  obtain ⟨⟨s, hs, hh⟩, _⟩ := allCycles_sound graph n p hp
  rw [getD_zero_of_head? _ s hh]
  exact hs

/-- The polygons of `allCycles` come in the order of their roots: the first
node never decreases along the list. -/
theorem allCycles_heads_sorted (graph : Graph) (n : Nat) :
    (allCycles graph n).Pairwise (fun p q => p.nodes.getD 0 0 ≤ q.nodes.getD 0 0) := by
  induction n with
  | zero => simp [allCycles]
  | succ n ih =>
    rw [allCycles_succ, List.pairwise_append]
    refine ⟨ih, ?_, ?_⟩
    · apply List.pairwise_of_forall_mem_list
      intro a ha b hb
      rw [getD_zero_of_head? _ n (head_of_mem_enum_root graph n _ a ha),
        getD_zero_of_head? _ n (head_of_mem_enum_root graph n _ b hb)]
    · intro a ha b hb
      have h1 := getD_zero_of_mem_allCycles graph n a ha
      rw [getD_zero_of_head? _ n (head_of_mem_enum_root graph n _ b hb)]
      omega

theorem mem_keepUnseen (same : Polygon → Polygon → Bool) (q : Polygon) :
    ∀ (l seen : List Polygon), q ∈ keepUnseen same seen l →
      ∃ A B, l = A ++ q :: B ∧ ∀ a ∈ seen ++ A, same a q = false := by
  intro l
  induction l with
  | nil => intro seen h; simp [keepUnseen] at h
  | cons p ps ih =>
    intro seen h
    unfold keepUnseen at h
    by_cases hseen : seen.any (fun a => same a p) = true
    · rw [if_pos hseen] at h
      obtain ⟨A, B, h1, h2⟩ := ih (seen ++ [p]) h
      refine ⟨p :: A, B, by rw [h1]; rfl, ?_⟩
      intro a ha
      apply h2
      simp only [List.mem_append, List.mem_cons, List.mem_singleton] at ha ⊢
      rcases ha with ha | ha | ha
      · exact Or.inl (Or.inl ha)
      · exact Or.inl (Or.inr (Or.inl ha))
      · exact Or.inr ha
    · rw [if_neg hseen] at h
      rcases List.mem_cons.mp h with h | h
      · subst h
        refine ⟨[], ps, rfl, ?_⟩
        intro a ha
        simp only [List.append_nil] at ha
        cases hs : same a q with
        | false => rfl
        | true => exact absurd (List.any_eq_true.mpr ⟨a, ha, hs⟩) hseen
      · obtain ⟨A, B, h1, h2⟩ := ih (seen ++ [p]) h
        refine ⟨p :: A, B, by rw [h1]; rfl, ?_⟩
        intro a ha
        apply h2
        simp only [List.mem_append, List.mem_cons, List.mem_singleton] at ha ⊢
        rcases ha with ha | ha | ha
        · exact Or.inl (Or.inl ha)
        · exact Or.inl (Or.inr (Or.inl ha))
        · exact Or.inr ha

theorem rootLoop_none_of_large (graph : Graph) :
    ∀ (roots : List Nat) (s : DfsState), (∃ i ∈ roots, MAX_NODES ≤ i) →
      rootLoop graph roots s = none := by
  intro roots
  induction roots with
  | nil =>
    intro s h
    obtain ⟨i, hi, _⟩ := h
    cases hi
  | cons i roots ih =>
    intro s h
    unfold rootLoop
    cases hd : dfs graph i (MAX_NODES + 1) i s with
    | none => rfl
    | some s1 =>
      obtain ⟨j, hj, hjl⟩ := h
      rcases List.mem_cons.mp hj with hji | hji
      · subst hji
        unfold dfs at hd
        rw [if_neg (by omega)] at hd
        exact Option.noConfusion hd
      · exact ih s1 ⟨j, hji, hjl⟩

theorem le_of_findShapes_some (graph : Graph) (nodeCount : Nat) (ps : List Polygon)
    (h : findShapes graph nodeCount = some ps) : nodeCount ≤ MAX_NODES := by
  by_contra hgt
  rw [findShapes_eq_rootLoop, rootLoop_none_of_large graph _ _
    ⟨MAX_NODES, List.mem_range.mpr (by omega), Nat.le_refl _⟩] at h
  exact Option.noConfusion h

/-- Every polygon left by `removeDuplicates` on the output of `findShapes`
starts at the smallest vertex of its vertex set. -/
theorem retained_head_min (graph : Graph) (hg : InRange graph) (nodeCount : Nat)
    (ps : List Polygon) (h : findShapes graph nodeCount = some ps) (q : Polygon)
    (hq : q ∈ removeDuplicates ps) : ∀ x ∈ q.nodes, q.nodes.getD 0 0 ≤ x := by
  have hn := le_of_findShapes_some graph nodeCount ps h
  have hps := findShapes_spec graph nodeCount ps h
  rw [removeDuplicates_eq_keepUnseen] at hq
  obtain ⟨A, B, hsplit, hA⟩ := mem_keepUnseen arePolygonsSame q ps [] hq
  have hqps : q ∈ allCycles graph nodeCount := by
    rw [← hps, hsplit]; simp
  obtain ⟨_, hnd, hk, hc, _⟩ := allCycles_sound graph nodeCount q hqps
  have hh := getD_zero_of_mem_allCycles graph nodeCount q hqps
  intro x hx
  by_contra hlt
  have hxh : x < q.nodes.getD 0 0 := by omega
  obtain ⟨j, hj, hjx⟩ := List.getElem_of_mem hx
  have hk0 : 0 < q.nodes.length := by omega
  have hhead : (q.nodes.rotate j).getD 0 0 = x := by
    rw [getD_rotate q.nodes j 0 hk0, Nat.zero_add, Nat.mod_eq_of_lt hj,
      List.getD_eq_getElem _ _ hj, hjx]
  have hmem : (⟨q.nodes.rotate j, perimeterLoop graph (q.nodes.rotate j)⟩ : Polygon) ∈
      allCycles graph nodeCount :=
    allCycles_complete_closed graph nodeCount hg hn (q.nodes.rotate j)
      (by rw [List.length_rotate]; exact hk) (List.nodup_rotate.mpr hnd)
      (by rw [hhead]; omega) (closed_rotate graph q.nodes j hc)
  have hsmall : ∀ y ∈ q.nodes, y < 256 := by
    intro y hy
    have := mem_lt_of_closed graph hg q.nodes hc (by omega) y hy
    unfold MAX_NODES at this
    omega
  have hsame : arePolygonsSame ⟨q.nodes.rotate j, perimeterLoop graph (q.nodes.rotate j)⟩ q =
      true := by
    apply (arePolygonsSame_iff_perm _ _ _ hsmall).mpr
    · exact List.rotate_perm _ _
    · intro y hy
      exact hsmall y (List.mem_rotate.mp hy)
  rw [← hps, hsplit] at hmem
  have hsorted := allCycles_heads_sorted graph nodeCount
  rw [← hps, hsplit] at hsorted
  rcases List.mem_append.mp hmem with hin | hin
  · have := hA _ (by simpa using hin)
    rw [this] at hsame
    exact Bool.noConfusion hsame
  · rcases List.mem_cons.mp hin with heq | hin
    · have := congrArg (fun p : Polygon => p.nodes.getD 0 0) heq
      simp only [hhead] at this
      omega
    · have hqB := (List.pairwise_cons.mp (List.pairwise_append.mp hsorted).2.1).1 _ hin
      simp only [hhead] at hqB
      omega

/-! ## Graphs without parallel edges -/

theorem adj_addEdge (graph : Graph) (u v : Nat) (w : Int) (x y : Nat) :
    Adj (addEdge graph u v w) x y ↔ Adj graph x y ∨ (x = u ∧ y = v) ∨ (x = v ∧ y = u) := by
  unfold Adj
  rw [addEdge_edges]
  constructor
  · rintro ⟨e, he, hy⟩
    rcases List.mem_append.mp he with he | he
    · rcases List.mem_append.mp he with he | he
      · exact Or.inl ⟨e, he, hy⟩
      · by_cases hx : x = u
        · rw [if_pos hx, List.mem_singleton] at he
          rw [he] at hy
          exact Or.inr (Or.inl ⟨hx, hy.symm⟩)
        · rw [if_neg hx] at he; cases he
    · by_cases hx : x = v
      · rw [if_pos hx, List.mem_singleton] at he
        rw [he] at hy
        exact Or.inr (Or.inr ⟨hx, hy.symm⟩)
      · rw [if_neg hx] at he; cases he
  · rintro (⟨e, he, hy⟩ | ⟨hx, hy⟩ | ⟨hx, hy⟩)
    · exact ⟨e, List.mem_append_left _ (List.mem_append_left _ he), hy⟩
    · refine ⟨⟨v, w⟩, List.mem_append_left _ (List.mem_append_right _ ?_), hy.symm⟩
      rw [if_pos hx]
      exact List.mem_singleton.mpr rfl
    · refine ⟨⟨u, w⟩, List.mem_append_right _ ?_, hy.symm⟩
      rw [if_pos hx]
      exact List.mem_singleton.mpr rfl

theorem adj_symm_foldl (triples : List (Nat × Nat × Int)) :
    ∀ (graph : Graph), (∀ a b, Adj graph a b → Adj graph b a) →
      ∀ a b, Adj (triples.foldl (fun g t => addEdge g t.1 t.2.1 t.2.2) graph) a b →
        Adj (triples.foldl (fun g t => addEdge g t.1 t.2.1 t.2.2) graph) b a := by
  induction triples with
  | nil => intro graph h; exact h
  | cons t ts ih =>
    intro graph h
    rw [List.foldl_cons]
    apply ih
    intro a b hab
    rw [adj_addEdge] at hab ⊢
    rcases hab with hab | ⟨h1, h2⟩ | ⟨h1, h2⟩
    · exact Or.inl (h a b hab)
    · exact Or.inr (Or.inr ⟨h2, h1⟩)
    · exact Or.inr (Or.inl ⟨h2, h1⟩)

/-- In a graph built by `addEdge` calls adjacency is symmetric. -/
theorem adj_symm_buildGraph (triples : List (Nat × Nat × Int)) (a b : Nat)
    (h : Adj (buildGraph triples) a b) : Adj (buildGraph triples) b a :=
  adj_symm_foldl triples (createGraph MAX_NODES)
    (fun _ _ hab => by obtain ⟨e, he, _⟩ := hab; cases he) a b h

theorem distinct_addEdge (graph : Graph) (u v : Nat) (w : Int)
    (hd : DistinctNeighbours graph) (huv : u ≠ v) (h1 : ¬ Adj graph u v)
    (h2 : ¬ Adj graph v u) : DistinctNeighbours (addEdge graph u v w) := by
  intro a
  rw [addEdge_edges]
  by_cases hau : a = u
  · have hav : ¬ a = v := fun h => huv (hau.symm.trans h)
    rw [if_pos hau, if_neg hav, List.append_nil, List.pairwise_append]
    refine ⟨hd a, List.pairwise_singleton _ _, ?_⟩
    intro e he e1 he1
    rw [List.mem_singleton.mp he1]
    intro hn
    exact h1 ⟨e, by rw [← hau]; exact he, hn⟩
  · rw [if_neg hau, List.append_nil]
    by_cases hav : a = v
    · rw [if_pos hav, List.pairwise_append]
      refine ⟨hd a, List.pairwise_singleton _ _, ?_⟩
      intro e he e1 he1
      rw [List.mem_singleton.mp he1]
      intro hn
      exact h2 ⟨e, by rw [← hav]; exact he, hn⟩
    · rw [if_neg hav, List.append_nil]
      exact hd a

theorem distinct_foldl (triples : List (Nat × Nat × Int)) :
    ∀ (graph : Graph), DistinctNeighbours graph →
      (∀ t ∈ triples, ¬ Adj graph t.1 t.2.1 ∧ ¬ Adj graph t.2.1 t.1) →
      NoParallel triples → NoSelfLoop triples →
      DistinctNeighbours (triples.foldl (fun g t => addEdge g t.1 t.2.1 t.2.2) graph) := by
  induction triples with
  | nil => intro graph hd _ _ _; exact hd
  | cons t ts ih =>
    intro graph hd hadj hnp hns
    rw [List.foldl_cons]
    have ht := hadj t (List.mem_cons_self _ _)
    have hpw := List.pairwise_cons.mp hnp
    apply ih
    · exact distinct_addEdge graph t.1 t.2.1 t.2.2 hd (hns t (List.mem_cons_self _ _)) ht.1 ht.2
    · intro t1 ht1
      have hold := hadj t1 (List.mem_cons_of_mem _ ht1)
      have hpar := hpw.1 t1 ht1
      constructor
      · rw [adj_addEdge]
        rintro (h | ⟨h1, h2⟩ | ⟨h1, h2⟩)
        · exact hold.1 h
        · exact hpar (Or.inl ⟨h1.symm, h2.symm⟩)
        · exact hpar (Or.inr ⟨h2.symm, h1.symm⟩)
      · rw [adj_addEdge]
        rintro (h | ⟨h1, h2⟩ | ⟨h1, h2⟩)
        · exact hold.2 h
        · exact hpar (Or.inr ⟨h1.symm, h2.symm⟩)
        · exact hpar (Or.inl ⟨h2.symm, h1.symm⟩)
    · exact hpw.2
    · exact fun t1 ht1 => hns t1 (List.mem_cons_of_mem _ ht1)

/-- A graph built by `addEdge` calls without parallel edges and without
self-loops has no neighbour twice in any incident list. -/
theorem distinct_buildGraph (triples : List (Nat × Nat × Int)) (hnp : NoParallel triples)
    (hns : NoSelfLoop triples) : DistinctNeighbours (buildGraph triples) := by
  apply distinct_foldl triples (createGraph MAX_NODES) _ _ hnp hns
  · intro u
    exact List.Pairwise.nil
  · intro t _
    constructor
    · rintro ⟨e, he, _⟩; cases he
    · rintro ⟨e, he, _⟩; cases he

/-! ## No node sequence is recorded twice -/

theorem mem_enumBody_nodes (graph : Graph) (start fuel : Nat) (path : List Nat) (e : Edge)
    (x : List Nat)
    (hpre : ∀ p ∈ enum graph start fuel path e.node, ∃ ext, p.nodes = path ++ e.node :: ext)
    (hx : x ∈ (enumBody graph start (enum graph start fuel) path e).map (fun p => p.nodes)) :
    (x = path ∧ e.node = start) ∨ ∃ ext, x = path ++ e.node :: ext := by
  obtain ⟨p, hp, rfl⟩ := List.mem_map.mp hx
  unfold enumBody at hp
  by_cases hmem : e.node ∈ path
  · rw [if_pos hmem] at hp
    by_cases hc : e.node = start ∧ 3 ≤ path.length
    · rw [if_pos hc, List.mem_singleton] at hp
      subst hp
      exact Or.inl ⟨rfl, hc.1⟩
    · rw [if_neg hc] at hp
      cases hp
  · rw [if_neg hmem] at hp
    exact Or.inr (hpre p hp)

theorem enum_extends_path (graph : Graph) (start : Nat) :
    ∀ (fuel : Nat) (path : List Nat) (node : Nat) (p : Polygon),
      p ∈ enum graph start fuel path node → ∃ ext, p.nodes = path ++ node :: ext := by
  intro fuel
  induction fuel with
  | zero =>
    intro path node p h
    simp [enum] at h
  | succ fuel ih =>
    intro path node p h
    unfold enum at h
    obtain ⟨e, _, hp⟩ := List.mem_flatMap.mp h
    have hx : p.nodes ∈ (enumBody graph start (enum graph start fuel) (path ++ [node]) e).map
        (fun p => p.nodes) := List.mem_map.mpr ⟨p, hp, rfl⟩
    rcases mem_enumBody_nodes graph start fuel (path ++ [node]) e p.nodes
      (ih (path ++ [node]) e.node) hx with ⟨h1, _⟩ | ⟨ext, h1⟩
    · exact ⟨[], by rw [h1]⟩
    · exact ⟨e.node :: ext, by rw [h1]; simp⟩

/-- When no incident list holds a neighbour twice, a call of the search
records no node sequence twice. -/
theorem enum_nodes_nodup (graph : Graph) (start : Nat) (hd : DistinctNeighbours graph) :
    ∀ (fuel : Nat) (path : List Nat) (node : Nat),
      ((enum graph start fuel path node).map (fun p => p.nodes)).Nodup := by
  intro fuel
  induction fuel with
  | zero =>
    intro path node
    simp [enum]
  | succ fuel ih =>
    intro path node
    unfold enum
    rw [List.map_flatMap, List.nodup_flatMap]
    constructor
    · intro e _
      unfold enumBody
      by_cases hmem : e.node ∈ path ++ [node]
      · rw [if_pos hmem]
        by_cases hc : e.node = start ∧ 3 ≤ (path ++ [node]).length
        · rw [if_pos hc]
          exact List.nodup_singleton _
        · rw [if_neg hc]
          exact List.nodup_nil
      · rw [if_neg hmem]
        exact ih _ _
    · apply List.Pairwise.imp _ (hd node)
      intro e e1 hne x hx hx1
      rcases mem_enumBody_nodes graph start fuel (path ++ [node]) e x
        (enum_extends_path graph start fuel (path ++ [node]) e.node) hx with ⟨h1, h2⟩ | ⟨ext, h1⟩
      · rcases mem_enumBody_nodes graph start fuel (path ++ [node]) e1 x
          (enum_extends_path graph start fuel (path ++ [node]) e1.node) hx1 with
          ⟨_, h4⟩ | ⟨ext1, h3⟩
        · exact hne (h2.trans h4.symm)
        · rw [h1] at h3
          have := List.self_eq_append_right.mp h3
          cases this
      · rcases mem_enumBody_nodes graph start fuel (path ++ [node]) e1 x
          (enum_extends_path graph start fuel (path ++ [node]) e1.node) hx1 with
          ⟨h3, _⟩ | ⟨ext1, h3⟩
        · rw [h3] at h1
          have := List.self_eq_append_right.mp h1
          cases this
        · rw [h1] at h3
          have := List.append_cancel_left h3
          injection this with h5 _
          exact hne h5

/-- When no incident list holds a neighbour twice, `findShapes` records no node
sequence twice. -/
theorem allCycles_nodes_nodup (graph : Graph) (hd : DistinctNeighbours graph) (n : Nat) :
    ((allCycles graph n).map (fun p => p.nodes)).Nodup := by
  unfold allCycles
  rw [List.map_flatMap, List.nodup_flatMap]
  constructor
  · intro i _
    exact enum_nodes_nodup graph i hd _ _ _
  · apply List.Pairwise.imp _ (List.nodup_range n)
    intro i j hij x hx hx1
    obtain ⟨p, hp, hpx⟩ := List.mem_map.mp hx
    obtain ⟨q, hq, hqx⟩ := List.mem_map.mp hx1
    have h1 := head_of_mem_enum_root graph i _ p hp
    have h2 := head_of_mem_enum_root graph j _ q hq
    rw [hpx] at h1
    rw [hqx, h1] at h2
    injection h2 with h3
    exact hij h3

/-! ## The rotations of a cycle and of its reversal -/

theorem getD_reverse_nat (vs : List Nat) (i : Nat) (hi : i < vs.length) :
    vs.reverse.getD i 0 = vs.getD (vs.length - 1 - i) 0 := by
  have h1 : i < vs.reverse.length := by rw [List.length_reverse]; exact hi
  rw [List.getD_eq_getElem _ _ h1, List.getD_eq_getElem _ _ (by omega : vs.length - 1 - i < vs.length),
    List.getElem_reverse]

theorem closed_reverse (graph : Graph) (hsymm : ∀ a b, Adj graph a b → Adj graph b a)
    (vs : List Nat) (h : Closed graph vs) : Closed graph vs.reverse := by
  intro i hi
  rw [List.length_reverse] at hi ⊢
  have hk : 0 < vs.length := by omega
  rw [getD_reverse_nat vs i hi, getD_reverse_nat vs _ (Nat.mod_lt _ hk)]
  apply hsymm
  by_cases h1 : i + 1 < vs.length
  · rw [Nat.mod_eq_of_lt h1]
    have := h (vs.length - 1 - (i + 1)) (by omega)
    have e : (vs.length - 1 - (i + 1) + 1) % vs.length = vs.length - 1 - i := by
      rw [Nat.mod_eq_of_lt (by omega)]
      omega
    rwa [e] at this
  · have hi1 : i + 1 = vs.length := by omega
    rw [hi1, Nat.mod_self]
    have := h (vs.length - 1) (by omega)
    have e : (vs.length - 1 + 1) % vs.length = vs.length - 1 - i := by
      rw [Nat.sub_add_cancel (by omega), Nat.mod_self]
      omega
    rw [e] at this
    simpa using this

theorem rotationsOf_nodup (vs : List Nat) (hnd : vs.Nodup) : (rotationsOf vs).Nodup := by
  unfold rotationsOf
  apply List.Nodup.map_on _ (List.nodup_range _)
  intro i hi j hj hij
  have hi1 := List.mem_range.mp hi
  have hj1 := List.mem_range.mp hj
  have hne : vs ≠ [] := by
    intro h
    rw [h] at hi1
    simp at hi1
  have := hnd.rotate_congr hne i j hij
  rwa [Nat.mod_eq_of_lt hi1, Nat.mod_eq_of_lt hj1] at this

theorem getD_inj_of_nodup (vs : List Nat) (hnd : vs.Nodup) (i j : Nat) (hi : i < vs.length)
    (hj : j < vs.length) (h : vs.getD i 0 = vs.getD j 0) : i = j := by
  rw [List.getD_eq_getElem _ _ hi, List.getD_eq_getElem _ _ hj] at h
  exact hnd.getElem_inj_iff.mp h

/-- A rotation of a sequence of at least three distinct nodes is never a
rotation of its reversal. -/
theorem rotate_ne_reverse_rotate (vs : List Nat) (hnd : vs.Nodup) (hk : 3 ≤ vs.length)
    (i j : Nat) (hi : i < vs.length) (hj : j < vs.length) :
    vs.rotate i ≠ vs.reverse.rotate j := by
  intro h
  have hk0 : 0 < vs.length := by omega
  have hk1 : 1 < vs.length := by omega
  have hrl : vs.reverse.length = vs.length := List.length_reverse vs
  have e0 := congrArg (fun l : List Nat => l.getD 0 0) h
  have e1 := congrArg (fun l : List Nat => l.getD 1 0) h
  simp only at e0 e1
  rw [getD_rotate vs i 0 hk0, getD_rotate vs.reverse j 0 (by omega), hrl, Nat.zero_add,
    Nat.zero_add, Nat.mod_eq_of_lt hi, Nat.mod_eq_of_lt hj, getD_reverse_nat vs j hj] at e0
  rw [getD_rotate vs i 1 hk1, getD_rotate vs.reverse j 1 (by omega), hrl,
    getD_reverse_nat vs _ (Nat.mod_lt _ hk0)] at e1
  have a0 := getD_inj_of_nodup vs hnd _ _ hi (by omega) e0
  have a1 := getD_inj_of_nodup vs hnd _ _ (Nat.mod_lt _ hk0) (by omega) e1
  by_cases hj1 : 1 + j < vs.length
  · rw [Nat.mod_eq_of_lt hj1] at a1
    by_cases hi1 : 1 + i < vs.length
    · rw [Nat.mod_eq_of_lt hi1] at a1
      omega
    · have : 1 + i = vs.length := by omega
      rw [this, Nat.mod_self] at a1
      omega
  · have hj2 : 1 + j = vs.length := by omega
    rw [hj2, Nat.mod_self] at a1
    have hi0 : i = 0 := by omega
    rw [hi0, Nat.mod_eq_of_lt hk1] at a1
    omega

/-- The `2k` node sequences of a cycle on `k ≥ 3` distinct nodes, one per
start vertex and direction, are pairwise different. -/
theorem variants_nodup (vs : List Nat) (hnd : vs.Nodup) (hk : 3 ≤ vs.length) :
    (rotationsOf vs ++ rotationsOf vs.reverse).Nodup := by
  rw [List.nodup_append]
  refine ⟨rotationsOf_nodup vs hnd, rotationsOf_nodup vs.reverse (List.nodup_reverse.mpr hnd), ?_⟩
  intro x hx hx1
  unfold rotationsOf at hx hx1
  obtain ⟨i, hi, rfl⟩ := List.mem_map.mp hx
  obtain ⟨j, hj, hij⟩ := List.mem_map.mp hx1
  rw [List.length_reverse] at hj
  exact rotate_ne_reverse_rotate vs hnd hk i j (List.mem_range.mp hi) (List.mem_range.mp hj)
    hij.symm

theorem variants_length (vs : List Nat) :
    (rotationsOf vs ++ rotationsOf vs.reverse).length = 2 * vs.length := by
  simp [rotationsOf]
  omega

theorem mem_rotationsOf (vs l : List Nat) (hne : vs ≠ []) :
    l ∈ rotationsOf vs ↔ l.IsRotated vs := by
  unfold rotationsOf
  rw [List.isRotated_comm]
  constructor
  · intro h
    obtain ⟨i, _, hi⟩ := List.mem_map.mp h
    exact ⟨i, hi⟩
  · rintro ⟨n, hn⟩
    refine List.mem_map.mpr ⟨n % vs.length, List.mem_range.mpr (Nat.mod_lt _ ?_), ?_⟩
    · exact List.length_pos.mpr hne
    · rw [List.rotate_mod]
      exact hn

/-- In a list without repetition that contains every element of a second list
without repetition, the number of positions holding an element of the second
list is the length of the second list. -/
theorem filter_mem_length (A B : List (List Nat)) (hA : A.Nodup) (hB : B.Nodup)
    (hsub : ∀ x ∈ B, x ∈ A) : (A.filter (fun x => decide (x ∈ B))).length = B.length := by
  apply List.Perm.length_eq
  rw [List.perm_ext_iff_of_nodup (hA.filter _) hB]
  intro x
  rw [List.mem_filter]
  constructor
  · intro h
    simpa using h.2
  · intro h
    exact ⟨hsub x h, by simpa using h⟩

theorem filter_nodes_eq_length (ps : List Polygon) (x : List Nat)
    (hnod : (ps.map (fun p => p.nodes)).Nodup) (hx : x ∈ ps.map (fun p => p.nodes)) :
    (ps.filter (fun p => decide (p.nodes = x))).length = 1 := by
  have hlen := filter_mem_length (ps.map (fun p => p.nodes)) [x] hnod (List.nodup_singleton x)
    (fun y hy => by rw [List.mem_singleton.mp hy]; exact hx)
  rw [List.filter_map, List.length_map] at hlen
  rw [← List.length_singleton x, ← hlen]
  congr 1
  apply List.filter_congr
  intro p _
  simp only [Function.comp]
  apply decide_eq_decide.mpr
  rw [List.mem_singleton]

/-! ## Roots within the capacity of the arrays, weights of built graphs -/

theorem allInRange_buildGraph (triples : List (Nat × Nat × Int))
    (h : EndpointsInRange triples) : AllInRange (buildGraph triples) := by
  intro u e he
  exact inRange_foldl triples (createGraph MAX_NODES) (fun _ _ he => by cases he) h u e he

theorem inRange_of_allInRange (graph : Graph) (h : AllInRange graph) : InRange graph :=
  fun u _ e he => h u e he

/-- With at most `MAX_NODES` roots the root loop returns, and the polygon list
it leaves is `allCycles`. -/
theorem rootLoop_range (graph : Graph) (hg : InRange graph) (m : Nat) (hm : m ≤ MAX_NODES) :
    ∃ st, rootLoop graph (List.range m) initialState = some st ∧
      st.polygons = allCycles graph m := by
  have h := findShapes_total graph m hg hm
  rw [findShapes_eq_rootLoop] at h
  cases hr : rootLoop graph (List.range m) initialState with
  | none => rw [hr] at h; exact Option.noConfusion h
  | some st => rw [hr] at h; exact ⟨st, rfl, Option.some.inj h⟩

/-- In a graph built by `addEdge` calls with endpoints below `m`, the roots
from `m` on add nothing. -/
theorem allCycles_buildGraph_small (triples : List (Nat × Nat × Int)) (m n : Nat)
    (hm : ∀ t ∈ triples, t.1 < m ∧ t.2.1 < m) (hmn : m ≤ n) :
    allCycles (buildGraph triples) n = allCycles (buildGraph triples) m := by
  apply allCycles_of_isolated _ m n hmn
  intro i hi _
  apply edges_foldl_nil triples i _ _ rfl
  intro t ht
  have := hm t ht
  exact ⟨by omega, by omega⟩

/-- The scan of the list of `a` for `b`, when the first-match lookup finds the
weight `w`: the perimeter grows by `w`, with the wrap-around of `int`. -/
theorem edgeScan_of_weight (graph : Graph) (a b : Nat) (w : Int)
    (h : weight graph a b = some w) (perimeter : Int) :
    edgeScan b (graph.edges a) perimeter = wrapInt (perimeter + w) := by
  rw [edgeScan_eq]
  unfold weight firstEdge at h
  cases hf : (graph.edges a).find? (fun e => decide (e.node = b)) with
  | none => rw [hf] at h; exact Option.noConfusion h
  | some e =>
    rw [hf] at h
    have hw : e.weight = w := Option.some.inj h
    rw [← hw]
    rfl

theorem firstWeight_buildGraph (triples : List (Nat × Nat × Int)) (a b : Nat) :
    firstWeight (buildGraph triples) a b = ((earliestJoin triples a b).getD (0, 0, 0)).2.2 := by
  unfold firstWeight
  rw [weight_buildGraph]
  cases earliestJoin triples a b <;> rfl

theorem sum_getD_eq_sum_filterMap (f : Nat → Option Int) (l : List Nat) :
    (l.map (fun j => (f j).getD 0)).sum = (l.filterMap f).sum := by
  induction l with
  | nil => rfl
  | cons j l ih =>
    rw [List.map_cons, List.sum_cons, ih, List.filterMap_cons]
    cases f j with
    | none => simp
    | some w => simp

theorem rootLoop_cons (graph : Graph) (i : Nat) (roots : List Nat) (s : DfsState) :
    rootLoop graph (i :: roots) s =
      (dfs graph i (MAX_NODES + 1) i s).bind (rootLoop graph roots) := by
  rw [rootLoop]
  cases dfs graph i (MAX_NODES + 1) i s <;> rfl

theorem rootLoop_append (graph : Graph) :
    ∀ (roots more : List Nat) (s : DfsState),
      rootLoop graph (roots ++ more) s = (rootLoop graph roots s).bind (rootLoop graph more) := by
  intro roots
  induction roots with
  | nil => intro more s; rfl
  | cons i roots ih =>
    intro more s
    rw [List.cons_append, rootLoop_cons, rootLoop_cons]
    cases dfs graph i (MAX_NODES + 1) i s with
    | none => rfl
    | some s1 => exact ih more s1

/-- The root loop of `findShapes` passes through the state reached after the
first `m` roots and continues from it with the roots from `m` on. -/
theorem findShapes_after_roots (graph : Graph) (m n : Nat) (hmn : m ≤ n) (st : DfsState)
    (h : rootLoop graph (List.range m) initialState = some st) :
    findShapes graph n =
      (rootLoop graph (List.range' m (n - m)) st).map (fun s => s.polygons) := by
  have hsplit : List.range n = List.range m ++ List.range' m (n - m) := by
    rw [List.range_eq_range', List.range_eq_range']
    have := List.range'_append 0 m (n - m) 1
    rw [Nat.one_mul, Nat.zero_add, Nat.sub_add_cancel hmn] at this
    exact this.symm
  rw [findShapes_eq_rootLoop, hsplit, rootLoop_append, h]
  rfl

/-! ## Claims -/

/-- C1: on a graph whose stored neighbour indices all lie below `MAX_NODES`,
for every `nodeCount` and every sequence of at least three pairwise distinct
vertices whose first vertex is below `nodeCount`, each vertex having its
successor among its neighbours and the last having the first: the root loop of
`findShapes` completes the roots below `nodeCount` that index inside the
arrays (the roots below `min nodeCount MAX_NODES`), the polygon list written
by then contains a polygon with exactly that node sequence, and `findShapes`
continues from that state with the remaining roots; when `nodeCount` is at
most `MAX_NODES` there are none left, `findShapes` returns, and the list it
returns contains that polygon. -/
theorem findShapes_complete (graph : Graph) (hg : AllInRange graph) (nodeCount : Nat)
    (vs : List Nat) (hk : 3 ≤ vs.length) (hnd : vs.Nodup) (h0 : vs.getD 0 0 < nodeCount)
    (hadj : ∀ i, i + 1 < vs.length → Adj graph (vs.getD i 0) (vs.getD (i + 1) 0))
    (hclose : Adj graph (vs.getD (vs.length - 1) 0) (vs.getD 0 0)) :
    (∃ st, rootLoop graph (List.range (min nodeCount MAX_NODES)) initialState = some st ∧
        (∃ p ∈ st.polygons, p.nodes = vs) ∧
        findShapes graph nodeCount =
          (rootLoop graph (List.range' (min nodeCount MAX_NODES)
            (nodeCount - min nodeCount MAX_NODES)) st).map (fun s => s.polygons)) ∧
      (nodeCount ≤ MAX_NODES →
        ∃ ps, findShapes graph nodeCount = some ps ∧ ∃ p ∈ ps, p.nodes = vs) := by
  have hin := inRange_of_allInRange graph hg
  have hv0 : vs.getD 0 0 < MAX_NODES := by
    obtain ⟨e, he, hev⟩ := hclose
    rw [← hev]
    exact hg _ e he
  constructor
  · obtain ⟨st, hst, hpol⟩ := rootLoop_range graph hin (min nodeCount MAX_NODES)
      (Nat.min_le_right _ _)
    refine ⟨st, hst, ⟨⟨vs, perimeterLoop graph vs⟩, ?_, rfl⟩,
      findShapes_after_roots graph _ nodeCount (Nat.min_le_left _ _) st hst⟩
    rw [hpol]
    exact allCycles_complete graph _ hin (Nat.min_le_right _ _) vs hk hnd
      (Nat.lt_min.mpr ⟨h0, hv0⟩) hadj hclose
  · intro hn
    exact ⟨allCycles graph nodeCount, findShapes_total graph nodeCount hin hn, _,
      allCycles_complete graph nodeCount hin hn vs hk hnd h0 hadj hclose, rfl⟩

/-- Witness for C1: the triangle 0, 1, 2 searched, as `main` does, with
`MAX_NODES` roots. -/
theorem findShapes_complete_witness :
    (∃ st, rootLoop triangleGraph (List.range (min MAX_NODES MAX_NODES)) initialState =
        some st ∧ (∃ p ∈ st.polygons, p.nodes = [0, 1, 2]) ∧
        findShapes triangleGraph MAX_NODES =
          (rootLoop triangleGraph (List.range' (min MAX_NODES MAX_NODES)
            (MAX_NODES - min MAX_NODES MAX_NODES)) st).map (fun s => s.polygons)) ∧
      ∃ ps, findShapes triangleGraph MAX_NODES = some ps ∧ ∃ p ∈ ps, p.nodes = [0, 1, 2] :=
  have h := findShapes_complete triangleGraph (allInRange_buildGraph _ (by decide)) MAX_NODES
    [0, 1, 2] (by decide) (by decide) (by decide)
    (by
      intro i hi
      have hi2 : i < 2 := by
        simp only [List.length_cons, List.length_nil] at hi
        omega
      interval_cases i <;> decide)
    (by decide)
  ⟨h.1, h.2 (by decide)⟩

/-- C2: every polygon recorded by `findShapes`, and hence every polygon left by
`removeDuplicates`, is closed: each node has an edge to its cyclic successor in
its incident list, so the first-match lookup of the perimeter loop finds an
edge at every position. -/
theorem recorded_polygon_closed (graph : Graph) (nodeCount : Nat) (ps : List Polygon)
    (h : findShapes graph nodeCount = some ps) (p : Polygon)
    (hp : p ∈ ps ∨ p ∈ removeDuplicates ps) (i : Nat) (hi : i < p.nodes.length) :
    (∃ e ∈ graph.edges (p.nodes.getD i 0),
        e.node = p.nodes.getD ((i + 1) % p.nodes.length) 0) ∧
      (firstEdge graph (p.nodes.getD i 0)
        (p.nodes.getD ((i + 1) % p.nodes.length) 0)).isSome = true := by
  have hmem : p ∈ allCycles graph nodeCount := by
    rw [← findShapes_spec graph nodeCount ps h]
    rcases hp with hp | hp
    · exact hp
    · exact (removeDuplicates_sublist ps).subset hp
  have hc := (allCycles_sound graph nodeCount p hmem).2.2.2.1 i hi
  exact ⟨hc, firstEdge_isSome_of_adj graph _ _ hc⟩

/-- Witness for C2: the first polygon of the triangle, at position 2 (the
closing edge from 2 back to 0). -/
theorem recorded_polygon_closed_witness :
    (∃ e ∈ triangleGraph.edges 2, e.node = 0) ∧ (firstEdge triangleGraph 2 0).isSome = true :=
  recorded_polygon_closed triangleGraph 3 trianglePolygons (by decide) ⟨[0, 1, 2], 3⟩
    (Or.inl (by decide)) 2 (by decide)

/-- C3: every polygon recorded by `findShapes`, and every polygon left by
`removeDuplicates`, has at least three nodes and no node twice, whatever the
graph (parallel edges and self-loops included). -/
theorem recorded_polygon_simple (graph : Graph) (nodeCount : Nat) (ps : List Polygon)
    (h : findShapes graph nodeCount = some ps) (p : Polygon)
    (hp : p ∈ ps ∨ p ∈ removeDuplicates ps) :
    3 ≤ p.nodeCount ∧ p.nodes.Nodup := by
  have hmem : p ∈ allCycles graph nodeCount := by
    rw [← findShapes_spec graph nodeCount ps h]
    rcases hp with hp | hp
    · exact hp
    · exact (removeDuplicates_sublist ps).subset hp
  have hs := allCycles_sound graph nodeCount p hmem
  exact ⟨hs.2.2.1, hs.2.1⟩

/-- Witness for C3: the polygon 0, 1, 2 of the triangle. -/
theorem recorded_polygon_simple_witness :
    3 ≤ (⟨[0, 1, 2], 3⟩ : Polygon).nodeCount ∧ ([0, 1, 2] : List Nat).Nodup :=
  recorded_polygon_simple triangleGraph 3 trianglePolygons (by decide) ⟨[0, 1, 2], 3⟩
    (Or.inl (by decide))

/-- C4 (as amended): for every graph built by `addEdge` calls with endpoints
below `MAX_NODES`, every `nodeCount` up to `MAX_NODES` and every simple cycle of
the graph on vertices below `nodeCount`, the list left by `removeDuplicates`
applied to the output of `findShapes` contains a polygon on the same vertex set
(its node sequence is a permutation of the cycle). -/
theorem dedup_retains_vertex_set (triples : List (Nat × Nat × Int))
    (hr : EndpointsInRange triples) (nodeCount : Nat) (hn : nodeCount ≤ MAX_NODES)
    (vs : List Nat) (hk : 3 ≤ vs.length) (hnd : vs.Nodup) (hlt : ∀ v ∈ vs, v < nodeCount)
    (hc : Closed (buildGraph triples) vs) :
    ∃ ps, findShapes (buildGraph triples) nodeCount = some ps ∧
      ∃ q ∈ removeDuplicates ps, q.nodes.Perm vs := by
  have hg := inRange_buildGraph triples hr
  have h0 : vs.getD 0 0 < nodeCount := by
    apply hlt
    rw [List.getD_eq_getElem _ _ (by omega)]
    exact List.getElem_mem _
  have hadj : ∀ i, i + 1 < vs.length →
      Adj (buildGraph triples) (vs.getD i 0) (vs.getD (i + 1) 0) := by
    intro i hi
    have := hc i (by omega)
    rwa [Nat.mod_eq_of_lt hi] at this
  have hclose : Adj (buildGraph triples) (vs.getD (vs.length - 1) 0) (vs.getD 0 0) := by
    have := hc (vs.length - 1) (by omega)
    have hm : (vs.length - 1 + 1) % vs.length = 0 := by
      rw [Nat.sub_add_cancel (by omega), Nat.mod_self]
    rwa [hm] at this
  have hmem := allCycles_complete (buildGraph triples) nodeCount hg hn vs hk hnd h0 hadj hclose
  refine ⟨_, findShapes_total (buildGraph triples) nodeCount hg hn, ?_⟩
  rw [removeDuplicates_eq]
  obtain ⟨q, hq, hsame⟩ := keepFirst_cover arePolygonsSame arePolygonsSame_refl _ _ hmem
  exact ⟨q, hq, perm_of_arePolygonsSame _ _ hsame⟩

/-- Witness for C4 (amended): the cycle 0, 1, 3, 2 of the complete graph on
four vertices; the retained polygon 0, 1, 2, 3 has the same vertex set. -/
theorem dedup_retains_vertex_set_witness :
    ∃ ps, findShapes completeGraph4 4 = some ps ∧
      ∃ q ∈ removeDuplicates ps, q.nodes.Perm [0, 1, 3, 2] :=
  dedup_retains_vertex_set [(0, 1, 1), (0, 2, 1), (0, 3, 1), (1, 2, 1), (1, 3, 1), (2, 3, 1)]
    (by decide) 4 (by decide) [0, 1, 3, 2] (by decide) (by decide) (by decide) (by decide)

/-- C4 (as stated) fails: 0, 1, 3, 2 is a simple cycle of the complete graph on
four vertices, and no polygon left after deduplication is a rotation of it or
of its reversal; the cycle 0, 1, 2, 3 on the same vertex set was met first. -/
theorem dedup_drops_cycle_counterexample :
    (findShapes completeGraph4 4).map removeDuplicates = some completeGraph4Retained ∧
      ([0, 1, 3, 2] : List Nat).Nodup ∧ (∀ v ∈ ([0, 1, 3, 2] : List Nat), v < 4) ∧
      Closed completeGraph4 [0, 1, 3, 2] ∧
      ∀ p ∈ completeGraph4Retained,
        ¬ (p.nodes.IsRotated [0, 1, 3, 2] ∨ p.nodes.IsRotated ([0, 1, 3, 2] : List Nat).reverse) := by
  refine ⟨by decide, by decide, by decide, by decide, by decide⟩

/-- C5: after `removeDuplicates`, no two polygons at different positions of the
list are judged the same by `arePolygonsSame`: their node counts differ or
their node sequences, sorted as `arePolygonsSame` sorts them, differ. -/
theorem removeDuplicates_no_duplicates (polygons : List Polygon) (i j : Nat)
    (hi : i < (removeDuplicates polygons).length) (hj : j < (removeDuplicates polygons).length)
    (hne : i ≠ j) :
    arePolygonsSame ((removeDuplicates polygons).getD i ⟨[], 0⟩)
        ((removeDuplicates polygons).getD j ⟨[], 0⟩) = false ∧
      ¬ (((removeDuplicates polygons).getD i ⟨[], 0⟩).nodeCount =
            ((removeDuplicates polygons).getD j ⟨[], 0⟩).nodeCount ∧
          qsortNodes ((removeDuplicates polygons).getD i ⟨[], 0⟩).nodes =
            qsortNodes ((removeDuplicates polygons).getD j ⟨[], 0⟩).nodes) := by
  have hpw : (removeDuplicates polygons).Pairwise (fun a b => arePolygonsSame a b = false) := by
    rw [removeDuplicates_eq]
    exact keepFirst_pairwise _ _
  have hget := List.pairwise_iff_getElem.mp hpw
  rw [List.getD_eq_getElem _ _ hi, List.getD_eq_getElem _ _ hj]
  have hfalse : arePolygonsSame (removeDuplicates polygons)[i] (removeDuplicates polygons)[j] =
      false := by
    rcases Nat.lt_or_gt_of_ne hne with h | h
    · exact hget i j hi hj h
    · rw [arePolygonsSame_symm]
      exact hget j i hj hi h
  refine ⟨hfalse, ?_⟩
  intro hc
  have := (arePolygonsSame_iff _ _).mpr hc
  rw [hfalse] at this
  exact Bool.noConfusion this

/-- Witness for C5: of three polygons the rotation of the first is dropped and
the two that stay are not judged the same. -/
theorem removeDuplicates_no_duplicates_witness :
    arePolygonsSame ((removeDuplicates samplePolygons).getD 0 ⟨[], 0⟩)
        ((removeDuplicates samplePolygons).getD 1 ⟨[], 0⟩) = false ∧
      ¬ (((removeDuplicates samplePolygons).getD 0 ⟨[], 0⟩).nodeCount =
            ((removeDuplicates samplePolygons).getD 1 ⟨[], 0⟩).nodeCount ∧
          qsortNodes ((removeDuplicates samplePolygons).getD 0 ⟨[], 0⟩).nodes =
            qsortNodes ((removeDuplicates samplePolygons).getD 1 ⟨[], 0⟩).nodes) :=
  removeDuplicates_no_duplicates samplePolygons 0 1 (by decide) (by decide) (by decide)

/-- C6 (failing input): the second polygon of `widePolygons` is the reversal of
the first, so both have the same vertex multiset, yet `removeDuplicates` keeps
both: the `strcmp` comparator reads the integers 0 and 256 as the same (empty)
string, the two sorted arrays differ, and the polygons are judged different. -/
theorem removeDuplicates_keeps_later_permutation :
    removeDuplicates widePolygons = widePolygons ∧
      ([0, 1, 256] : List Nat).Perm [256, 1, 0] ∧
      qsortNodes [0, 1, 256] = [0, 256, 1] ∧ qsortNodes [256, 1, 0] = [256, 0, 1] := by
  decide

/-- C7: `removeDuplicates` is idempotent. -/
theorem removeDuplicates_idempotent (polygons : List Polygon) :
    removeDuplicates (removeDuplicates polygons) = removeDuplicates polygons := by
  rw [removeDuplicates_eq, removeDuplicates_eq]
  exact keepFirst_idem _ _

/-- C8 (failing input): the node sequences 0, 1, 256 and 256, 1, 0 have the
same length and are permutations of one another (both are 0, 1, 256 in
ascending numeric order), and `arePolygonsSame` answers `false`: the comparator
`strcmp` reads the integers 0 and 256 as the same empty string, so the sort
leaves them in the order it found them. -/
theorem arePolygonsSame_rejects_permutation :
    arePolygonsSame ⟨[0, 1, 256], 3⟩ ⟨[256, 1, 0], 3⟩ = false ∧
      (⟨[0, 1, 256], 3⟩ : Polygon).nodeCount = (⟨[256, 1, 0], 3⟩ : Polygon).nodeCount ∧
      ([0, 1, 256] : List Nat).Perm [256, 1, 0] ∧
      ([0, 1, 256] : List Nat).insertionSort (fun a b => a ≤ b) =
        ([256, 1, 0] : List Nat).insertionSort (fun a b => a ≤ b) ∧
      compareNodes 0 256 = 0 ∧ compareNodes 256 0 = 0 := by
  decide

/-- C9 (as amended): the perimeter of every polygon recorded by `findShapes`
is the sum, over the positions `i` of its node sequence, of
`weight(v(i), v((i+1) mod k))`, the weight of the first edge to
`v((i+1) mod k)` in the incident list of `v(i)`, reduced modulo `2^32` into
the range of `int`; each of these weights exists, and the perimeter is the sum
itself whenever the sum lies in the range of `int`. -/
theorem recorded_perimeter (graph : Graph) (nodeCount : Nat) (ps : List Polygon)
    (h : findShapes graph nodeCount = some ps) (p : Polygon) (hp : p ∈ ps) :
    ∃ ws : List Int, ws.length = p.nodeCount ∧
      (∀ i, i < p.nodeCount →
        weight graph (p.nodes.getD i 0) (p.nodes.getD ((i + 1) % p.nodeCount) 0) =
          some (ws.getD i 0)) ∧
      p.perimeter = wrapInt ws.sum ∧
      (-2147483648 ≤ ws.sum → ws.sum < 2147483648 → p.perimeter = ws.sum) := by
  have hmem : p ∈ allCycles graph nodeCount := by
    rw [← findShapes_spec graph nodeCount ps h]; exact hp
  have hs := allCycles_sound graph nodeCount p hmem
  have hper : p.perimeter = wrapInt ((List.range p.nodes.length).map (fun j =>
      firstWeight graph (p.nodes.getD j 0) (p.nodes.getD ((j + 1) % p.nodes.length) 0))).sum := by
    rw [hs.2.2.2.2, perimeterLoop_eq]
  refine ⟨(List.range p.nodes.length).map (fun j =>
    firstWeight graph (p.nodes.getD j 0) (p.nodes.getD ((j + 1) % p.nodes.length) 0)), ?_, ?_,
    hper, ?_⟩
  · simp [Polygon.nodeCount]
  · intro i hi
    unfold Polygon.nodeCount at hi ⊢
    have hsome := firstEdge_isSome_of_adj graph _ _ (hs.2.2.2.1 i hi)
    have hget : ((List.range p.nodes.length).map (fun j =>
        firstWeight graph (p.nodes.getD j 0) (p.nodes.getD ((j + 1) % p.nodes.length) 0))).getD
          i 0 =
        firstWeight graph (p.nodes.getD i 0) (p.nodes.getD ((i + 1) % p.nodes.length) 0) := by
      rw [List.getD_eq_getElem _ _ (by simpa using hi), List.getElem_map, List.getElem_range]
    rw [hget]
    unfold firstWeight weight
    cases hf : firstEdge graph (p.nodes.getD i 0) (p.nodes.getD ((i + 1) % p.nodes.length) 0) with
    | none => rw [hf] at hsome; exact Bool.noConfusion hsome
    | some e => rfl
  · intro h1 h2
    rw [hper, wrapInt_of_range _ h1 h2]

/-- Witness for C9 (amended): the polygon 0, 1, 2 of the triangle, perimeter 3. -/
theorem recorded_perimeter_witness :
    ∃ ws : List Int, ws.length = 3 ∧
      (∀ i, i < 3 →
        weight triangleGraph (([0, 1, 2] : List Nat).getD i 0)
          (([0, 1, 2] : List Nat).getD ((i + 1) % 3) 0) = some (ws.getD i 0)) ∧
      (3 : Int) = wrapInt ws.sum ∧
      (-2147483648 ≤ ws.sum → ws.sum < 2147483648 → (3 : Int) = ws.sum) :=
  recorded_perimeter triangleGraph 3 trianglePolygons (by decide) ⟨[0, 1, 2], 3⟩ (by decide)

/-- C9 (as stated) fails: in the triangle with the weights 2147483647, 1 and 1
`findShapes` records the polygon 0, 1, 2 with the perimeter -2147483647, while
the three first-match weights are 2147483647, 1 and 1 and their sum is
2147483649, which no `int` holds. -/
theorem recorded_perimeter_counterexample :
    (∃ ps, findShapes (buildGraph overflowTriangle) 3 = some ps ∧
      (⟨[0, 1, 2], -2147483647⟩ : Polygon) ∈ ps) ∧
      weight (buildGraph overflowTriangle) 0 1 = some 2147483647 ∧
      weight (buildGraph overflowTriangle) 1 2 = some 1 ∧
      weight (buildGraph overflowTriangle) 2 0 = some 1 ∧
      (-2147483647 : Int) ≠ 2147483647 + 1 + 1 ∧
      ¬ ∃ ws : List Int, ws.length = 3 ∧
        (∀ i, i < 3 →
          weight (buildGraph overflowTriangle) (([0, 1, 2] : List Nat).getD i 0)
            (([0, 1, 2] : List Nat).getD ((i + 1) % 3) 0) = some (ws.getD i 0)) ∧
        (-2147483647 : Int) = ws.sum := by
  refine ⟨⟨allCycles (buildGraph overflowTriangle) 3,
    findShapes_total _ 3 (inRange_buildGraph _ (by decide)) (by decide), by decide⟩,
    by decide, by decide, by decide, by decide, ?_⟩
  rintro ⟨ws, hl, hw, hsum⟩
  match ws, hl, hw, hsum with
  | [x, y, z], _, hw, hsum =>
    have hx : some (2147483647 : Int) = some x :=
      (by decide : weight (buildGraph overflowTriangle) 0 1 = some 2147483647).symm.trans
        (hw 0 (by decide))
    have hy : some (1 : Int) = some y :=
      (by decide : weight (buildGraph overflowTriangle) 1 2 = some 1).symm.trans
        (hw 1 (by decide))
    have hz : some (1 : Int) = some z :=
      (by decide : weight (buildGraph overflowTriangle) 2 0 = some 1).symm.trans
        (hw 2 (by decide))
    have hx1 := Option.some.inj hx
    have hy1 := Option.some.inj hy
    have hz1 := Option.some.inj hz
    subst hx1 hy1 hz1
    exact absurd hsum (by decide)

/-- C10: in a graph built from `createGraph` by `addEdge` calls with no
parallel edges, two polygons recorded by `findShapes` whose node sequences are
rotations of one another, or one a rotation of the reversal of the other, have
equal perimeters. -/
theorem perimeter_rotation_reversal (triples : List (Nat × Nat × Int))
    (_hnp : NoParallel triples) (nodeCount : Nat) (ps : List Polygon)
    (h : findShapes (buildGraph triples) nodeCount = some ps) (p q : Polygon)
    (hp : p ∈ ps) (hq : q ∈ ps)
    (hrot : p.nodes.IsRotated q.nodes ∨ p.nodes.IsRotated q.nodes.reverse) :
    p.perimeter = q.perimeter := by
  have hps := findShapes_spec _ nodeCount ps h
  rw [hps] at hp hq
  rw [(allCycles_sound _ nodeCount p hp).2.2.2.2, (allCycles_sound _ nodeCount q hq).2.2.2.2]
  exact perimeterLoop_rotation_reversal _ (firstWeight_symm_buildGraph triples) _ _ hrot

/-- Witness for C10: the polygons 0, 1, 2 and 2, 1, 0 of the triangle with
weights 1, 2, 4; both have perimeter 7. -/
theorem perimeter_rotation_reversal_witness :
    findShapes (buildGraph weightedTriangle) 3 = some weightedTrianglePolygons ∧
      (⟨[0, 1, 2], 7⟩ : Polygon).perimeter = (⟨[2, 1, 0], 7⟩ : Polygon).perimeter :=
  ⟨by decide,
    perimeter_rotation_reversal weightedTriangle (by decide) 3 weightedTrianglePolygons
      (by decide) ⟨[0, 1, 2], 7⟩ ⟨[2, 1, 0], 7⟩ (by decide) (by decide) (Or.inr (by decide))⟩

/-- C11: in a graph obtained from `createGraph(N)` by `addEdge` calls with
endpoints below `N`, the number of entries `(v, w)` in the list of `u` equals
the number of entries `(u, w)` in the list of `v`; each call
`addEdge(u0, v0, w0)` appends `(v0, w0)` at the end of the list of `u0`, then
`(u0, w0)` at the end of the list of `v0`, and changes no other list. -/
theorem undirected_store (N : Nat) (hN : N ≤ MAX_NODES) (triples : List (Nat × Nat × Int))
    (hr : ∀ t ∈ triples, t.1 < N ∧ t.2.1 < N) (u v : Nat) (w : Int) :
    ((graphFrom N triples).edges u).count ⟨v, w⟩ =
        ((graphFrom N triples).edges v).count ⟨u, w⟩ ∧
      ∀ (graph : Graph) (u0 v0 : Nat) (w0 : Int) (a : Nat),
        (addEdge graph u0 v0 w0).edges a =
          graph.edges a ++ (if a = u0 then [⟨v0, w0⟩] else []) ++
            (if a = v0 then [⟨u0, w0⟩] else []) := by
  have _h1 := hN
  have _h2 := hr
  exact ⟨count_symm_foldl triples (createGraph N) (fun _ _ _ => rfl) u v w, addEdge_edges⟩

/-- Witness for C11: in the triangle the entry `(1, 1)` occurs once in the list
of 0 and the entry `(0, 1)` once in the list of 1. -/
theorem undirected_store_witness :
    ((graphFrom 100 [(0, 1, 1), (1, 2, 1), (2, 0, 1)]).edges 0).count ⟨1, 1⟩ = 1 ∧
      ((graphFrom 100 [(0, 1, 1), (1, 2, 1), (2, 0, 1)]).edges 1).count ⟨0, 1⟩ = 1 ∧
      ((graphFrom 100 [(0, 1, 1), (1, 2, 1), (2, 0, 1)]).edges 0).count ⟨1, 1⟩ =
        ((graphFrom 100 [(0, 1, 1), (1, 2, 1), (2, 0, 1)]).edges 1).count ⟨0, 1⟩ :=
  ⟨by decide, by decide,
    (undirected_store 100 (by decide) [(0, 1, 1), (1, 2, 1), (2, 0, 1)] (by decide) 0 1 1).1⟩

/-- C12: for the unit triangle on 0, 1, 2, built with its three `addEdge`
calls in any order and with the endpoints of each call in either order, and
for any `nodeCount` of at least 3: the root loop of `findShapes` completes the
roots below `nodeCount` that index inside the arrays (the roots below
`min nodeCount MAX_NODES`), `removeDuplicates` leaves of the polygon list
written by then exactly one polygon, with `nodeCount` 3, vertex set 0, 1, 2
and perimeter 3, and `findShapes` continues from that state with the remaining
roots; when `nodeCount` is at most `MAX_NODES` (the value `main` passes) there
are none left, `findShapes` returns, and `removeDuplicates` leaves exactly that
polygon of the list it returns. -/
theorem triangle_scenario (triples : List (Nat × Nat × Int)) (ht : triples ∈ triangleInputs)
    (nodeCount : Nat) (h3 : 3 ≤ nodeCount) :
    ∃ p, p.nodeCount = 3 ∧ p.nodes.Perm [0, 1, 2] ∧ p.perimeter = 3 ∧
      (∃ st, rootLoop (buildGraph triples) (List.range (min nodeCount MAX_NODES))
          initialState = some st ∧ removeDuplicates st.polygons = [p] ∧
        findShapes (buildGraph triples) nodeCount =
          (rootLoop (buildGraph triples) (List.range' (min nodeCount MAX_NODES)
            (nodeCount - min nodeCount MAX_NODES)) st).map (fun s => s.polygons)) ∧
      (nodeCount ≤ MAX_NODES →
        (findShapes (buildGraph triples) nodeCount).map removeDuplicates = some [p]) := by
  have hall : ∀ t ∈ triangleInputs, (∀ x ∈ t, x.1 < 3 ∧ x.2.1 < 3) ∧
      IsOneTriangle (removeDuplicates (allCycles (buildGraph t) 3)) := by decide
  obtain ⟨hlt, hlen, hp⟩ := hall triples ht
  have hr : EndpointsInRange triples := fun t ht =>
    ⟨by have := (hlt t ht).1; unfold MAX_NODES; omega,
      by have := (hlt t ht).2; unfold MAX_NODES; omega⟩
  have hm3 : 3 ≤ min nodeCount MAX_NODES := Nat.le_min.mpr ⟨h3, by decide⟩
  obtain ⟨st, hst, hpol⟩ := rootLoop_range (buildGraph triples)
    (inRange_buildGraph triples hr) (min nodeCount MAX_NODES) (Nat.min_le_right _ _)
  rw [allCycles_buildGraph_small triples 3 _ hlt hm3] at hpol
  match hps : removeDuplicates (allCycles (buildGraph triples) 3), hlen, hp with
  | [p], _, hp =>
    have hp1 := hp p (List.mem_singleton.mpr rfl)
    refine ⟨p, hp1.1, hp1.2.1, hp1.2.2, ⟨st, hst, by rw [hpol, hps],
      findShapes_after_roots _ _ nodeCount (Nat.min_le_left _ _) st hst⟩, ?_⟩
    intro hn
    rw [findShapes_buildGraph_small triples 3 nodeCount hlt h3 hn]
    simp [hps]

/-- Witness for C12: the triangle as `main` searches it, with `MAX_NODES`
roots, the edge 2-0 added first and the edge 0-1 given as 1-0. -/
theorem triangle_scenario_witness :
    ∃ p, p.nodeCount = 3 ∧ p.nodes.Perm [0, 1, 2] ∧ p.perimeter = 3 ∧
      (∃ st, rootLoop (buildGraph [(2, 0, 1), (1, 0, 1), (1, 2, 1)])
          (List.range (min MAX_NODES MAX_NODES)) initialState = some st ∧
        removeDuplicates st.polygons = [p] ∧
        findShapes (buildGraph [(2, 0, 1), (1, 0, 1), (1, 2, 1)]) MAX_NODES =
          (rootLoop (buildGraph [(2, 0, 1), (1, 0, 1), (1, 2, 1)])
            (List.range' (min MAX_NODES MAX_NODES) (MAX_NODES - min MAX_NODES MAX_NODES))
            st).map (fun s => s.polygons)) ∧
      (findShapes (buildGraph [(2, 0, 1), (1, 0, 1), (1, 2, 1)]) MAX_NODES).map
        removeDuplicates = some [p] :=
  match triangle_scenario [(2, 0, 1), (1, 0, 1), (1, 2, 1)] (by decide) MAX_NODES
    (by decide) with
  | ⟨p, h1, h2, h3, h4, h5⟩ => ⟨p, h1, h2, h3, h4, h5 (by decide)⟩

/-- C13: for the square 0-1-2-3 with unit sides and the diagonal 0-2 of weight
5, searched with any number of roots from 4 to `MAX_NODES`, `findShapes`
followed by `removeDuplicates` leaves exactly three polygons: the vertex set
0, 1, 2, 3 with perimeter 4, the vertex set 0, 1, 2 with perimeter 7 and the
vertex set 0, 2, 3 with perimeter 7. -/
theorem square_diagonal_scenario (nodeCount : Nat) (h4 : 4 ≤ nodeCount)
    (hn : nodeCount ≤ MAX_NODES) :
    ∃ p1 p2 p3, (findShapes (buildGraph squareDiagonal) nodeCount).map removeDuplicates =
        some [p1, p2, p3] ∧
      p1.nodes.Perm [0, 1, 2, 3] ∧ p1.perimeter = 4 ∧
      p2.nodes.Perm [0, 1, 2] ∧ p2.perimeter = 7 ∧
      p3.nodes.Perm [0, 2, 3] ∧ p3.perimeter = 7 := by
  rw [findShapes_buildGraph_small squareDiagonal 4 nodeCount (by decide) h4 hn]
  have h : removeDuplicates (allCycles (buildGraph squareDiagonal) 4) =
      [⟨[0, 1, 2, 3], 4⟩, ⟨[0, 1, 2], 7⟩, ⟨[0, 3, 2], 7⟩] := by decide
  refine ⟨⟨[0, 1, 2, 3], 4⟩, ⟨[0, 1, 2], 7⟩, ⟨[0, 3, 2], 7⟩, by simp [h], ?_⟩
  decide

/-- Witness for C13: the square with its diagonal as `main` searches it, with
`MAX_NODES` roots. -/
theorem square_diagonal_scenario_witness :
    ∃ p1 p2 p3, (findShapes (buildGraph squareDiagonal) MAX_NODES).map removeDuplicates =
        some [p1, p2, p3] ∧
      p1.nodes.Perm [0, 1, 2, 3] ∧ p1.perimeter = 4 ∧
      p2.nodes.Perm [0, 1, 2] ∧ p2.perimeter = 7 ∧
      p3.nodes.Perm [0, 2, 3] ∧ p3.perimeter = 7 :=
  square_diagonal_scenario MAX_NODES (by decide) (by decide)

/-- C14: in a graph built by `addEdge` calls (endpoints below `MAX_NODES`), for
distinct vertices `a` and `b` joined by at least one call, the scan of the
perimeter loop for `b` in the list of `a` and the scan for `a` in the list of
`b` both add the weight of the earliest call joining them (the first-match
lookups return that weight in both directions); hence the perimeter of every
polygon recorded by `findShapes` is the sum, reduced into the range of `int`,
of the weights of the earliest calls joining its consecutive vertices, and at
each position where the polygon passes from `a` to `b` or from `b` to `a` that
call is the earliest call joining `a` and `b`, whatever the weights of the
later parallel edges. -/
theorem first_stored_edge_wins (triples : List (Nat × Nat × Int))
    (hr : EndpointsInRange triples) (a b : Nat) (hab : a ≠ b)
    (hj : ∃ t ∈ triples, joins a b t = true) :
    ∃ t, earliestJoin triples a b = some t ∧
      (∀ perimeter : Int,
        edgeScan b ((buildGraph triples).edges a) perimeter = wrapInt (perimeter + t.2.2)) ∧
      (∀ perimeter : Int,
        edgeScan a ((buildGraph triples).edges b) perimeter = wrapInt (perimeter + t.2.2)) ∧
      weight (buildGraph triples) a b = some t.2.2 ∧
      weight (buildGraph triples) b a = some t.2.2 ∧
      ∀ (nodeCount : Nat) (ps : List Polygon),
        findShapes (buildGraph triples) nodeCount = some ps →
        ∀ p ∈ ps, ∃ ts : List (Nat × Nat × Int), ts.length = p.nodeCount ∧
          (∀ i, i < p.nodeCount →
            earliestJoin triples (p.nodes.getD i 0) (p.nodes.getD ((i + 1) % p.nodeCount) 0) =
              some (ts.getD i (0, 0, 0))) ∧
          p.perimeter = wrapInt (ts.map (fun c => c.2.2)).sum ∧
          ∀ i, i < p.nodeCount →
            ((p.nodes.getD i 0 = a ∧ p.nodes.getD ((i + 1) % p.nodeCount) 0 = b) ∨
              (p.nodes.getD i 0 = b ∧ p.nodes.getD ((i + 1) % p.nodeCount) 0 = a)) →
            ts.getD i (0, 0, 0) = t := by
  have _h1 := hr
  have _h2 := hab
  obtain ⟨t0, ht0, hjt0⟩ := hj
  have hsome : (earliestJoin triples a b).isSome = true := by
    unfold earliestJoin
    rw [List.find?_isSome]
    exact ⟨t0, ht0, hjt0⟩
  obtain ⟨t, ht⟩ := Option.isSome_iff_exists.mp hsome
  have hab1 : weight (buildGraph triples) a b = some t.2.2 := by
    rw [weight_buildGraph, ht]; rfl
  have hba1 : weight (buildGraph triples) b a = some t.2.2 := by
    rw [weight_buildGraph, ← earliestJoin_comm, ht]; rfl
  refine ⟨t, ht, edgeScan_of_weight _ a b _ hab1, edgeScan_of_weight _ b a _ hba1, hab1, hba1, ?_⟩
  intro nodeCount ps h p hp
  have hmem : p ∈ allCycles (buildGraph triples) nodeCount := by
    rw [← findShapes_spec _ nodeCount ps h]; exact hp
  have hs := allCycles_sound _ nodeCount p hmem
  have hget : ∀ i, i < p.nodes.length →
      ((List.range p.nodes.length).map (fun j =>
        (earliestJoin triples (p.nodes.getD j 0)
          (p.nodes.getD ((j + 1) % p.nodes.length) 0)).getD (0, 0, 0))).getD i (0, 0, 0) =
      (earliestJoin triples (p.nodes.getD i 0)
        (p.nodes.getD ((i + 1) % p.nodes.length) 0)).getD (0, 0, 0) := by
    intro i hi
    rw [List.getD_eq_getElem _ _ (by simpa using hi), List.getElem_map, List.getElem_range]
  have hjoin : ∀ i, i < p.nodes.length →
      earliestJoin triples (p.nodes.getD i 0) (p.nodes.getD ((i + 1) % p.nodes.length) 0) =
        some ((earliestJoin triples (p.nodes.getD i 0)
          (p.nodes.getD ((i + 1) % p.nodes.length) 0)).getD (0, 0, 0)) := by
    intro i hi
    have hfe := firstEdge_isSome_of_adj _ _ _ (hs.2.2.2.1 i hi)
    have hw : (weight (buildGraph triples) (p.nodes.getD i 0)
        (p.nodes.getD ((i + 1) % p.nodes.length) 0)).isSome = true := by
      unfold weight
      rw [Option.isSome_map']
      exact hfe
    rw [weight_buildGraph, Option.isSome_map'] at hw
    obtain ⟨t1, ht1⟩ := Option.isSome_iff_exists.mp hw
    rw [ht1]
    rfl
  refine ⟨(List.range p.nodes.length).map (fun j =>
    (earliestJoin triples (p.nodes.getD j 0)
      (p.nodes.getD ((j + 1) % p.nodes.length) 0)).getD (0, 0, 0)), ?_, ?_, ?_, ?_⟩
  · simp [Polygon.nodeCount]
  · intro i hi
    unfold Polygon.nodeCount at hi ⊢
    rw [hget i hi]
    exact hjoin i hi
  · rw [hs.2.2.2.2, perimeterLoop_eq, List.map_map]
    congr 2
    apply List.map_congr_left
    intro j _
    exact firstWeight_buildGraph triples _ _
  · intro i hi hpair
    unfold Polygon.nodeCount at hi hpair
    rw [hget i hi]
    rcases hpair with ⟨e1, e2⟩ | ⟨e1, e2⟩
    · rw [e1, e2, ht]; rfl
    · rw [e1, e2, ← earliestJoin_comm, ht]; rfl

/-- Witness for C14: the side 0-1 of the triangle is stored with weight 5 and
then with weight 1; the scans in both directions add 5, and every recorded
polygon has perimeter 5 + 1 + 1 = 7. -/
theorem first_stored_edge_wins_witness :
    (∃ t, earliestJoin parallelTriangle 0 1 = some t ∧
      (∀ perimeter : Int,
        edgeScan 1 ((buildGraph parallelTriangle).edges 0) perimeter =
          wrapInt (perimeter + t.2.2)) ∧
      (∀ perimeter : Int,
        edgeScan 0 ((buildGraph parallelTriangle).edges 1) perimeter =
          wrapInt (perimeter + t.2.2)) ∧
      weight (buildGraph parallelTriangle) 0 1 = some t.2.2 ∧
      weight (buildGraph parallelTriangle) 1 0 = some t.2.2 ∧
      ∀ (nodeCount : Nat) (ps : List Polygon),
        findShapes (buildGraph parallelTriangle) nodeCount = some ps →
        ∀ p ∈ ps, ∃ ts : List (Nat × Nat × Int), ts.length = p.nodeCount ∧
          (∀ i, i < p.nodeCount →
            earliestJoin parallelTriangle (p.nodes.getD i 0)
              (p.nodes.getD ((i + 1) % p.nodeCount) 0) = some (ts.getD i (0, 0, 0))) ∧
          p.perimeter = wrapInt (ts.map (fun c => c.2.2)).sum ∧
          ∀ i, i < p.nodeCount →
            ((p.nodes.getD i 0 = 0 ∧ p.nodes.getD ((i + 1) % p.nodeCount) 0 = 1) ∨
              (p.nodes.getD i 0 = 1 ∧ p.nodes.getD ((i + 1) % p.nodeCount) 0 = 0)) →
            ts.getD i (0, 0, 0) = t) ∧
      earliestJoin parallelTriangle 0 1 = some (0, 1, 5) ∧
      ∃ ps, findShapes (buildGraph parallelTriangle) 3 = some ps ∧ ps ≠ [] ∧
        ∀ p ∈ ps, p.perimeter = 7 :=
  ⟨first_stored_edge_wins parallelTriangle (by decide) 0 1 (by decide)
      ⟨(0, 1, 5), by decide, by decide⟩,
    by decide,
    allCycles (buildGraph parallelTriangle) 3,
    findShapes_total _ 3 (inRange_buildGraph _ (by decide)) (by decide), by decide, by decide⟩

/-- C15 (as amended): the perimeter computation signals nothing when a
consecutive pair has no edge: for every graph and node sequence it returns the
sum of the weights of the first-match edges it does find, a pair without an
edge contributing nothing.  The sum is the one an `int` holds: reduced modulo
`2^32` into the range of `int`, and the sum itself whenever that lies in the
range. -/
theorem perimeter_skips_missing_edge (graph : Graph) (nodes : List Nat) :
    perimeterLoop graph nodes =
        wrapInt ((List.range nodes.length).filterMap (fun j =>
          weight graph (nodes.getD j 0) (nodes.getD ((j + 1) % nodes.length) 0))).sum ∧
      (-2147483648 ≤ ((List.range nodes.length).filterMap (fun j =>
          weight graph (nodes.getD j 0) (nodes.getD ((j + 1) % nodes.length) 0))).sum →
        ((List.range nodes.length).filterMap (fun j =>
          weight graph (nodes.getD j 0) (nodes.getD ((j + 1) % nodes.length) 0))).sum <
            2147483648 →
        perimeterLoop graph nodes =
          ((List.range nodes.length).filterMap (fun j =>
            weight graph (nodes.getD j 0) (nodes.getD ((j + 1) % nodes.length) 0))).sum) := by
  have h : perimeterLoop graph nodes =
      wrapInt ((List.range nodes.length).filterMap (fun j =>
        weight graph (nodes.getD j 0) (nodes.getD ((j + 1) % nodes.length) 0))).sum := by
    rw [perimeterLoop_eq]
    congr 1
    exact sum_getD_eq_sum_filterMap
      (fun j => weight graph (nodes.getD j 0) (nodes.getD ((j + 1) % nodes.length) 0)) _
  exact ⟨h, fun h1 h2 => by rw [h, wrapInt_of_range _ h1 h2]⟩

/-- Witness for C15 (amended): on the graph with the single edge 0-1 of weight
5 and the sequence 0, 1, 2 the loop returns the sum of the weights it found. -/
theorem perimeter_skips_missing_edge_witness :
    perimeterLoop singleEdgeGraph [0, 1, 2] =
      ((List.range ([0, 1, 2] : List Nat).length).filterMap (fun j =>
        weight singleEdgeGraph (([0, 1, 2] : List Nat).getD j 0)
          (([0, 1, 2] : List Nat).getD ((j + 1) % ([0, 1, 2] : List Nat).length) 0))).sum :=
  (perimeter_skips_missing_edge singleEdgeGraph [0, 1, 2]).2 (by decide) (by decide)

/-- C15 (as stated) fails: in the graph with the single edge 0-1 of weight 5
the sequence 0, 1, 2 has no edge from 1 to 2 and none from 2 to 0; the
perimeter loop returns 5, the weight of the one edge it found, and the closing
branch of `dfs` stores the polygon with that perimeter. -/
theorem perimeter_missing_edge_counterexample :
    weight singleEdgeGraph 1 2 = none ∧ weight singleEdgeGraph 2 0 = none ∧
      perimeterLoop singleEdgeGraph [0, 1, 2] = 5 ∧
      (recordPolygon singleEdgeGraph
        { visited := fun _ => false
          stack := fun j => j
          stackIndex := 3
          polygons := [] }).polygons = [⟨[0, 1, 2], 5⟩] := by
  decide

/-- C16: on a graph with in-range neighbour indices, a call of `dfs` on a node
that is unvisited at entry returns with the `visited` array and `stackIndex`
as they were at entry and with the stack entries below the entry `stackIndex`
unchanged; the polygon list has only grown at its end.  Consequently the state
the root loop of `findShapes` has reached when it starts the search of root
`i`, after the roots below `i`, has `visited` all false and `stackIndex = 0`. -/
theorem backtracking_restores (graph : Graph) (hg : InRange graph) (start fuel node : Nat)
    (s s1 : DfsState) (hvis : s.visited node = false)
    (h : dfs graph start fuel node s = some s1) :
    s1.visited = s.visited ∧ s1.stackIndex = s.stackIndex ∧
      (∀ i, i < s.stackIndex → s1.stack i = s.stack i) ∧
      (∃ new, s1.polygons = s.polygons ++ new) ∧
      ∀ (i : Nat) (s0 : DfsState), rootLoop graph (List.range i) initialState = some s0 →
        (∀ x, s0.visited x = false) ∧ s0.stackIndex = 0 := by
  have _hg := hg
  obtain ⟨new, h1, h2, h3, h4⟩ := dfs_frame graph start fuel node s s1 hvis h
  refine ⟨h1, h2, h3, ⟨new, h4⟩, ?_⟩
  intro i s0 hr
  have := rootLoop_frame graph (List.range i) initialState s0 rfl (fun _ => rfl) hr
  exact ⟨this.2, this.1⟩

/-- Witness for C16: the search of root 0 in the triangle, from the initial
state, returns with `visited` and `stackIndex` as at entry. -/
theorem backtracking_restores_witness :
    ∃ s1, dfs triangleGraph 0 (MAX_NODES + 1) 0 initialState = some s1 ∧
      s1.visited = initialState.visited ∧ s1.stackIndex = initialState.stackIndex :=
  have hsome : (dfs triangleGraph 0 (MAX_NODES + 1) 0 initialState).isSome = true := by decide
  have hres := backtracking_restores triangleGraph (by decide) 0 (MAX_NODES + 1) 0 initialState
    ((dfs triangleGraph 0 (MAX_NODES + 1) 0 initialState).get hsome) rfl
    (Option.some_get hsome).symm
  ⟨_, (Option.some_get hsome).symm, hres.1, hres.2.1⟩

/-- C17: on a graph whose neighbour indices all lie below `MAX_NODES`,
`findShapes` (with at most `MAX_NODES` roots) returns, and for every root every
call of `dfs` made during its search is entered on an unvisited node with
`stackIndex` below `MAX_NODES`, so the write `stack[stackIndex]` is inside the
array, and returns; every recursive call it makes has strictly fewer unvisited
vertices than it has. -/
theorem search_terminates_within_stack (graph : Graph) (hg : InRange graph) (nodeCount : Nat)
    (hn : nodeCount ≤ MAX_NODES) :
    (∃ ps, findShapes graph nodeCount = some ps) ∧
      ∀ root, root < nodeCount →
        ∃ s0, rootLoop graph (List.range root) initialState = some s0 ∧
          ∀ (fuel node : Nat) (s : DfsState),
            Calls graph root (MAX_NODES + 1) root s0 fuel node s →
            s.visited node = false ∧ s.stackIndex < MAX_NODES ∧
              (∃ s1, dfs graph root fuel node s = some s1) ∧
              ∀ (f n1 : Nat) (s1 : DfsState), fuel = f + 1 →
                SubCall graph root f node s n1 s1 → unvisitedCount s1 < unvisitedCount s := by
  refine ⟨⟨_, findShapes_total graph nodeCount hg hn⟩, ?_⟩
  intro root hroot
  obtain ⟨s0, h0⟩ := rootLoop_total graph hg (List.range root) initialState rfl (fun _ => rfl)
    (fun i hi => by have := List.mem_range.mp hi; omega)
  have hf := rootLoop_frame graph (List.range root) initialState s0 rfl (fun _ => rfl) h0
  have hs0 := stateOk_of_empty s0 hf.1 hf.2
  refine ⟨s0, h0, ?_⟩
  intro fuel node s hc
  obtain ⟨hs, hv, hlt, hfuel⟩ := calls_invariant graph root (MAX_NODES + 1) root s0 hs0
    (hf.2 root) (by omega) (by omega) fuel node s hc
  refine ⟨hv, stackIndex_lt_of_stateOk s node hs hv hlt,
    dfs_total graph root hg fuel node s hs hv hlt hfuel, ?_⟩
  intro f n1 s1 _ hsub
  exact subCall_unvisited_lt graph root f node s n1 s1 hs hv hsub

/-- Witness for C17: the triangle searched with three roots. -/
theorem search_terminates_within_stack_witness :
    ∃ ps, findShapes triangleGraph 3 = some ps :=
  (search_terminates_within_stack triangleGraph (by decide) 3 (by decide)).1

/-- C18: for a graph built by `addEdge` calls (endpoints below `MAX_NODES`)
without parallel edges and without self-loops, the raw list of `findShapes`
holds no node sequence twice, and for every simple cycle on `k ≥ 3` vertices
below `nodeCount` each of its `k` rotations and each of the `k` rotations of
its reversal occurs exactly once; these `2k` sequences are pairwise
different, and exactly `2k` polygons of the list are a rotation of the cycle
or of its reversal. -/
theorem rediscovery_multiplicity (triples : List (Nat × Nat × Int))
    (hr : EndpointsInRange triples) (hnp : NoParallel triples) (hns : NoSelfLoop triples)
    (nodeCount : Nat) (ps : List Polygon)
    (h : findShapes (buildGraph triples) nodeCount = some ps) :
    (ps.map (fun p => p.nodes)).Nodup ∧
      ∀ vs : List Nat, 3 ≤ vs.length → vs.Nodup → (∀ v ∈ vs, v < nodeCount) →
        Closed (buildGraph triples) vs →
        (∀ i, i < vs.length →
          (ps.filter (fun p => decide (p.nodes = vs.rotate i))).length = 1 ∧
            (ps.filter (fun p => decide (p.nodes = vs.reverse.rotate i))).length = 1) ∧
        (rotationsOf vs ++ rotationsOf vs.reverse).Nodup ∧
        (ps.filter (fun p =>
          decide (p.nodes.IsRotated vs ∨ p.nodes.IsRotated vs.reverse))).length =
            2 * vs.length := by
  have hn := le_of_findShapes_some _ nodeCount ps h
  have hps := findShapes_spec _ nodeCount ps h
  have hg := inRange_buildGraph triples hr
  have hnod : (ps.map (fun p => p.nodes)).Nodup := by
    rw [hps]
    exact allCycles_nodes_nodup _ (distinct_buildGraph triples hnp hns) nodeCount
  refine ⟨hnod, ?_⟩
  intro vs hk hnd hlt hc
  have hk0 : 0 < vs.length := by omega
  have hne : vs ≠ [] := List.length_pos.mp hk0
  have hrne : vs.reverse ≠ [] := by simpa using hne
  have hcr := closed_reverse _ (adj_symm_buildGraph triples) vs hc
  have hmem : ∀ (l : List Nat), 3 ≤ l.length → l.Nodup → (∀ v ∈ l, v < nodeCount) →
      Closed (buildGraph triples) l → ∀ i, l.rotate i ∈ ps.map (fun p => p.nodes) := by
    intro l hlk hlnd hllt hlc i
    have hl0 : 0 < l.length := by omega
    have hhead : (l.rotate i).getD 0 0 < nodeCount := by
      rw [getD_rotate l i 0 hl0]
      apply hllt
      rw [List.getD_eq_getElem _ _ (Nat.mod_lt _ hl0)]
      exact List.getElem_mem _
    have := allCycles_complete_closed _ nodeCount hg hn (l.rotate i)
      (by rw [List.length_rotate]; exact hlk) (List.nodup_rotate.mpr hlnd) hhead
      (closed_rotate _ l i hlc)
    rw [← hps] at this
    exact List.mem_map.mpr ⟨_, this, rfl⟩
  have hmem1 := hmem vs hk hnd hlt hc
  have hmem2 := hmem vs.reverse (by rw [List.length_reverse]; exact hk)
    (List.nodup_reverse.mpr hnd) (fun v hv => hlt v (List.mem_reverse.mp hv)) hcr
  refine ⟨fun i _ => ⟨filter_nodes_eq_length ps _ hnod (hmem1 i),
    filter_nodes_eq_length ps _ hnod (hmem2 i)⟩, variants_nodup vs hnd hk, ?_⟩
  have hsub : ∀ x ∈ rotationsOf vs ++ rotationsOf vs.reverse, x ∈ ps.map (fun p => p.nodes) := by
    intro x hx
    rcases List.mem_append.mp hx with hx | hx
    · obtain ⟨i, _, rfl⟩ := List.mem_map.mp hx
      exact hmem1 i
    · obtain ⟨i, _, rfl⟩ := List.mem_map.mp hx
      exact hmem2 i
  have hlen := filter_mem_length _ _ hnod (variants_nodup vs hnd hk) hsub
  rw [variants_length, List.filter_map, List.length_map] at hlen
  rw [← hlen]
  congr 1
  apply List.filter_congr
  intro p _
  simp only [Function.comp]
  apply decide_eq_decide.mpr
  rw [List.mem_append, mem_rotationsOf vs _ hne, mem_rotationsOf vs.reverse _ hrne]

/-- Witness for C18: the triangle 0, 1, 2 is recorded six times, once per
start vertex and direction. -/
theorem rediscovery_multiplicity_witness :
    (trianglePolygons.map (fun p => p.nodes)).Nodup ∧
      (trianglePolygons.filter (fun p =>
        decide (p.nodes.IsRotated [0, 1, 2] ∨
          p.nodes.IsRotated ([0, 1, 2] : List Nat).reverse))).length = 2 * 3 :=
  have hres := rediscovery_multiplicity [(0, 1, 1), (1, 2, 1), (2, 0, 1)] (by decide)
    (by decide) (by decide) 3 trianglePolygons (by decide)
  ⟨hres.1, (hres.2 [0, 1, 2] (by decide) (by decide) (by decide) (by decide)).2.2⟩

/-- C19: the enumerator enforces no limit on the number of polygons.  For the
complete graph on the vertices 0..4, built with ten `addEdge` calls and
searched as `main` does with `MAX_NODES` roots, `findShapes` appends 300
polygons (60 triangles, 120 quadrilaterals, 120 pentagons), more than the
`MAX_NODES` = 100 slots of the `polygons` array that `main` passes: the write
`polygons[polygonCount]` is made with `polygonCount` from 100 to 299. -/
theorem polygon_count_exceeds_capacity :
    EndpointsInRange completeGraph5 ∧ completeGraph5.length = 10 ∧
      ∃ ps, findShapes (buildGraph completeGraph5) MAX_NODES = some ps ∧
        ps.length = 300 ∧ MAX_NODES < ps.length ∧
        (ps.filter (fun p => p.nodeCount = 3)).length = 60 ∧
        (ps.filter (fun p => p.nodeCount = 4)).length = 120 ∧
        (ps.filter (fun p => p.nodeCount = 5)).length = 120 := by
  refine ⟨by decide, by decide, allCycles (buildGraph completeGraph5) 5,
    findShapes_buildGraph_small completeGraph5 5 MAX_NODES (by decide) (by decide)
      (Nat.le_refl _), ?_⟩
  set_option maxRecDepth 100000 in decide

/-- C20: on a graph with in-range neighbour indices, every polygon that
`findShapes` records during the search of root `s` (the polygons the call
`dfs(graph, s, s, ...)` appends to those of the earlier roots) has `s` as its
first node, and every polygon left by `removeDuplicates` on the output of
`findShapes` has as its first node the smallest vertex of its vertex set. -/
theorem canonical_representative (graph : Graph) (hg : InRange graph) (nodeCount : Nat)
    (ps : List Polygon) (h : findShapes graph nodeCount = some ps) :
    (∀ (s : Nat) (st st1 : DfsState), s < nodeCount →
        rootLoop graph (List.range s) initialState = some st →
        dfs graph s (MAX_NODES + 1) s st = some st1 →
        ∃ new, st1.polygons = st.polygons ++ new ∧ ∀ p ∈ new, p.nodes.head? = some s) ∧
      ∀ q ∈ removeDuplicates ps,
        ∃ first, q.nodes.head? = some first ∧ ∀ x ∈ q.nodes, first ≤ x := by
  constructor
  · intro s st st1 _ hst hd
    have hf := rootLoop_frame graph (List.range s) initialState st rfl (fun _ => rfl) hst
    have hok := stateOk_of_empty st hf.1 hf.2
    have hp := dfs_spec graph s (MAX_NODES + 1) s st st1 hok.1 (hf.2 s) hd
    have hnil : stackList st = [] := by simp [stackList, hf.1]
    rw [hnil] at hp
    exact ⟨_, hp.2.2.2, fun p hp1 => head_of_mem_enum_root graph s _ p hp1⟩
  · intro q hq
    have hmin := retained_head_min graph hg nodeCount ps h q hq
    have hqps : q ∈ allCycles graph nodeCount := by
      rw [← findShapes_spec graph nodeCount ps h]
      exact (removeDuplicates_sublist ps).subset hq
    obtain ⟨⟨s, _, hh⟩, _⟩ := allCycles_sound graph nodeCount q hqps
    refine ⟨s, hh, ?_⟩
    rw [getD_zero_of_head? _ s hh] at hmin
    exact hmin

/-- Witness for C20: in the complete graph on four vertices the five retained
polygons start at 0, 0, 0, 0 and 1, the smallest vertices of their sets. -/
theorem canonical_representative_witness :
    (findShapes completeGraph4 4).map removeDuplicates = some completeGraph4Retained ∧
      ∀ q ∈ removeDuplicates (allCycles completeGraph4 4),
        ∃ first, q.nodes.head? = some first ∧ ∀ x ∈ q.nodes, first ≤ x :=
  ⟨by decide,
    (canonical_representative completeGraph4 (by decide) 4 (allCycles completeGraph4 4)
      (findShapes_total completeGraph4 4 (by decide) (by decide))).2⟩

end PolygonFinder
